import Mathlib

/-!
# Verification of the associative-table engine of `exchange-desynced`

This file shallowly embeds `src/value0/table/assoc.rs` (hash functions, key
positions, item relocation, the programmatic `TableBuilder`, the load-time
`TableLoadBuilder`, and the layout validator `validate_positions`) and proves
the specified properties about them.

Machine integers are modelled as `Nat`/`Int` with explicit reductions
`% 2^32` where the source wraps; 32-bit signed wrapping is `wrap32`,
mapping into `[-2^31, 2^31)`.
-/

namespace ExchangeDesynced

/-- Signed 32-bit two's-complement wrap: reduce an integer into
`[-2^31, 2^31)` modulo `2^32`.  This is what Rust's release-mode `i32`
arithmetic and `as i32` casts compute. -/
def wrap32 (x : Int) : Int := (x + 2 ^ 31) % 2 ^ 32 - 2 ^ 31

/-- `u32::checked_add_signed`: `some` exactly when the mathematical sum is
representable as a `u32`. -/
def checkedAddSigned (pos : Nat) (link : Int) : Option Nat :=
  if 0 ≤ (pos : Int) + link ∧ (pos : Int) + link < 2 ^ 32 then
    some ((pos : Int) + link).toNat
  else none

/-- Modelled from the spec: `LogSize` (from the missing `common.rs`) is the
base-2 log of the associative capacity, `loglen ∈ {0..=30}`. -/
abbrev LogSize := Nat

/-- Modelled from the spec: `iexp2` (missing `common.rs`) maps an optional
loglen to the capacity: absent means the empty table, present means `2^loglen`
(§3: "a power-of-two-sized vector … of length `2^loglen`"). -/
def iexp2 : Option LogSize → Nat
  | none => 0
  | some l => 2 ^ l

/-- `mask(loglen) = iexp2(Some(loglen)) - 1`. -/
def mask (loglen : LogSize) : Nat := iexp2 (some loglen) - 1

/-- Modelled from the spec: `ilog2_exact` (missing `common.rs`) recovers
`loglen` from a capacity that the struct invariant keeps a power of two;
`some l` exactly on `2^l`.  (The source returns `Result<Option<LogSize>, _>`
and the only uses unwrap the `Ok`; zero capacity never reaches it because the
items vector is absent then, so the `Option Nat` codomain suffices here.) -/
def ilog2Exact (n : Nat) : Option Nat :=
  (List.range (n + 1)).find? (fun l => 2 ^ l = n)

/-- The state of `str_table_hash_with_seed`'s loop, one iteration:
`hash ^= (hash << 5).wrapping_add(hash >> 2).wrapping_add(byte)`, all `u32`. -/
def hashMix (hash byte : Nat) : Nat :=
  Nat.xor hash ((hash * 2 ^ 5 % 2 ^ 32 + hash / 2 ^ 2 + byte) % 2 ^ 32)

/-- The loop of `str_table_hash_with_seed`, transcribed with the `index`
counter structural (the source decrements `index` by `step ≥ 1` while
`index >= step`; `fuel` bounds the iteration count and is never exhausted
when `fuel ≥ index`, since each iteration consumes at least one of each).
`bytes[j]` is read with a default that is never used in bounds. -/
def strHashGo (bytes : List Nat) (step : Nat) : Nat → Nat → Nat → Nat
  | 0, _, hash => hash
  | fuel + 1, index, hash =>
    if step ≤ index then
      strHashGo bytes step fuel (index - step)
        (hashMix hash (bytes.getD (index - 1) 0))
    else hash

/-- The checked variant of the loop: models the source's
`match index.checked_sub(1) { Some(j) if j < value.len() => j, _ =>
unreachable_unchecked }`; `none` is the unreachable branch being reached. -/
def strHashGoChecked (bytes : List Nat) (step : Nat) :
    Nat → Nat → Nat → Option Nat
  | 0, _, hash => some hash
  | fuel + 1, index, hash =>
    if step ≤ index then
      match (if 1 ≤ index then some (index - 1) else none) with
      | some j =>
        if j < bytes.length then
          strHashGoChecked bytes step fuel (index - step)
            (hashMix hash (bytes.getD j 0))
        else none
      | none => none
    else some hash

/-- `str_table_hash_with_seed::<SEED>`: strings are their UTF-8 byte lists
(the `Str` key type is not under `src/`; the hash reads `value.as_bytes()`,
so the byte list is the whole input).  `hash = SEED ^ len`,
`step = (len >> 5) + 1`, then the loop. -/
def strTableHashWithSeed (seed : Nat) (bytes : List Nat) : Nat :=
  strHashGo bytes (bytes.length / 2 ^ 5 + 1) bytes.length bytes.length
    (Nat.xor seed bytes.length)

/-- `str_table_hash = str_table_hash_with_seed::<0x645D_BFCD>`. -/
def strTableHash (bytes : List Nat) : Nat :=
  strTableHashWithSeed 0x645DBFCD bytes

/-- `u32` view of an `i32` value: `value as u32`. -/
def toU32 (v : Int) : Nat := (v % 2 ^ 32).toNat

/-- `int_table_hash(value, loglen)`: `0` at `loglen == 0`; otherwise
nonnegative values reduce by the signed remainder `value % (mask as i32)`
cast back to `u32` (for a nonnegative dividend and positive divisor the
truncated and euclidean remainders agree), negative values cast to `u32`
first and reduce by the unsigned `% mask`. -/
def intTableHash (value : Int) (loglen : LogSize) : Nat :=
  if loglen = 0 then 0
  else if 0 ≤ value then toU32 (value % (mask loglen : Int))
  else toU32 value % mask loglen

/-- Modelled from the spec, §3: the associative key type (its definition
lives in the missing `value0` module root): `Index(i32)` or `Name(string)`,
a name being carried here as its UTF-8 bytes. -/
inductive Key : Type
  | index (value : Int)
  | name (bytes : List Nat)
  deriving DecidableEq, Repr

/-- `Key::position`: integer keys by `int_table_hash`, names by
`str_table_hash & mask`. -/
def Key.position : Key → LogSize → Nat
  | .index value, loglen => intTableHash value loglen
  | .name bytes, loglen => Nat.land (strTableHash bytes) (mask loglen)

/-- The string-hash recurrence as the spec words it (§4.5): the update is
applied "for j = len-1 downto 0 step -step", i.e. for every index of the
arithmetic progression that is still `≥ 0`.  Stated for comparison with
`strTableHashWithSeed`, which embeds the source loop. -/
def specStrHashGo (bytes : List Nat) (step : Nat) : Nat → Nat → Nat → Nat
  | 0, _, hash => hash
  | fuel + 1, j, hash =>
    let hash' := hashMix hash (bytes.getD j 0)
    if step ≤ j then specStrHashGo bytes step fuel (j - step) hash' else hash'

/-- The spec's string hash: seed-xor-len start, then the `downto 0`
recurrence (empty input has no iterations). -/
def specStrHash (seed : Nat) (bytes : List Nat) : Nat :=
  if bytes.length = 0 then Nat.xor seed 0
  else
    specStrHashGo bytes (bytes.length / 2 ^ 5 + 1) bytes.length
      (bytes.length - 1) (Nat.xor seed bytes.length)

/-- The checked variant of the whole string hash (entry point of
`strHashGoChecked`). -/
def strTableHashWithSeedChecked (seed : Nat) (bytes : List Nat) : Option Nat :=
  strHashGoChecked bytes (bytes.length / 2 ^ 5 + 1) bytes.length bytes.length
    (Nat.xor seed bytes.length)

/-- The checked variant of `int_table_hash`: `none` would mean the remainder
operation ran with a zero divisor (a division-by-zero panic in the source). -/
def intTableHashChecked (value : Int) (loglen : LogSize) : Option Nat :=
  if loglen = 0 then some 0
  else if mask loglen = 0 then none
  else if 0 ≤ value then some (toU32 (value % (mask loglen : Int)))
  else some (toU32 value % mask loglen)

section HashLemmas

/-- The source loop equals a fold over the arithmetic progression
`j = index-1, index-1-step, …` of length `index / step`. -/
theorem strHashGo_eq_foldl (bytes : List Nat) (step : Nat) (hstep : 1 ≤ step) :
    ∀ fuel index hash, index ≤ fuel →
      strHashGo bytes step fuel index hash =
        List.foldl (fun h k => hashMix h (bytes.getD (index - 1 - k * step) 0))
          hash (List.range (index / step)) := by
  intro fuel
  induction fuel with
  | zero =>
    intro index hash hle
    interval_cases index
    simp [strHashGo, Nat.zero_div]
  | succ fuel ih =>
    intro index hash hle
    by_cases hsi : step ≤ index
    · rw [strHashGo, if_pos hsi]
      rw [ih (index - step) _ (by omega)]
      rw [Nat.div_eq_sub_div (by omega) hsi, List.range_succ_eq_map]
      rw [List.foldl_cons, List.foldl_map]
      have harg : index - 1 - 0 * step = index - 1 := by omega
      rw [harg]
      have hfun :
          (fun h k => hashMix h (bytes.getD (index - step - 1 - k * step) 0))
            = fun (h k : Nat) =>
                hashMix h (bytes.getD (index - 1 - (k + 1) * step) 0) := by
        funext h k
        have harg2 : index - step - 1 - k * step = index - 1 - (k + 1) * step := by
          have : (k + 1) * step = k * step + step := by ring
          omega
        rw [harg2]
      rw [hfun]
    · rw [strHashGo, if_neg hsi]
      rw [Nat.div_eq_of_lt (by omega), List.range_zero, List.foldl_nil]

/-- The checked loop never reaches the `unreachable_unchecked` branch when
started inside the byte string: it returns the unchecked loop's value. -/
theorem strHashGoChecked_eq_some (bytes : List Nat) (step : Nat)
    (hstep : 1 ≤ step) :
    ∀ fuel index hash, index ≤ bytes.length →
      strHashGoChecked bytes step fuel index hash =
        some (strHashGo bytes step fuel index hash) := by
  intro fuel
  induction fuel with
  | zero => intro index hash _; rfl
  | succ fuel ih =>
    intro index hash hle
    by_cases hsi : step ≤ index
    · have h1 : 1 ≤ index := le_trans hstep hsi
      rw [strHashGoChecked, strHashGo, if_pos hsi, if_pos hsi, if_pos h1]
      simp only
      rw [if_pos (by omega : index - 1 < bytes.length)]
      exact ih (index - step) _ (by omega)
    · rw [strHashGoChecked, strHashGo, if_neg hsi, if_neg hsi]

end HashLemmas

section SmallValueLemmas

theorem toU32_of_small {x : Int} (h0 : 0 ≤ x) (h1 : x < 2 ^ 32) :
    toU32 x = x.toNat := by
  unfold toU32
  rw [Int.emod_eq_of_lt h0 h1]

theorem mask_eq (loglen : Nat) : mask loglen = 2 ^ loglen - 1 := rfl

theorem mask_pos {loglen : Nat} (h : 0 < loglen) : 0 < mask loglen := by
  have h2 : 2 ≤ 2 ^ loglen := by
    calc 2 = 2 ^ 1 := rfl
    _ ≤ 2 ^ loglen := Nat.pow_le_pow_right (by omega) h
  rw [mask_eq]
  omega

theorem mask_lt_pow {loglen : Nat} : mask loglen < 2 ^ loglen := by
  have h1 : 1 ≤ 2 ^ loglen := Nat.one_le_two_pow
  rw [mask_eq]
  omega

theorem mask_lt_u32 {loglen : Nat} (h : loglen ≤ 30) :
    mask loglen < 2 ^ 32 := by
  have h1 : 2 ^ loglen ≤ 2 ^ 30 := Nat.pow_le_pow_right (by omega) h
  have h2 : (2 : Nat) ^ 30 < 2 ^ 32 := by norm_num
  rw [mask_eq]
  omega

end SmallValueLemmas

/-- Every key's position lands inside the table (spec domain
`loglen ≤ 30`). -/
theorem position_lt (k : Key) (loglen : Nat) (h30 : loglen ≤ 30) :
    Key.position k loglen < 2 ^ loglen := by
  match k with
  | .index v =>
    show intTableHash v loglen < 2 ^ loglen
    unfold intTableHash
    by_cases h0 : loglen = 0
    · rw [if_pos h0]
      positivity
    · rw [if_neg h0]
      have hmpos : 0 < mask loglen := mask_pos (Nat.pos_of_ne_zero h0)
      have hmlt : mask loglen < 2 ^ loglen := mask_lt_pow
      by_cases hv : 0 ≤ v
      · rw [if_pos hv]
        have hlt : v % (mask loglen : Int) < (mask loglen : Int) :=
          Int.emod_lt_of_pos _ (by exact_mod_cast hmpos)
        have hge : 0 ≤ v % (mask loglen : Int) :=
          Int.emod_nonneg _ (by exact_mod_cast hmpos.ne')
        rw [toU32_of_small hge
          (lt_of_lt_of_le hlt (by exact_mod_cast (mask_lt_u32 h30).le))]
        omega
      · rw [if_neg hv]
        exact lt_trans (Nat.mod_lt _ hmpos) hmlt
  | .name bytes =>
    show Nat.land (strTableHash bytes) (mask loglen) < 2 ^ loglen
    exact lt_of_le_of_lt Nat.and_le_right mask_lt_pow

/-- C4 (corrected claim, counterexample): `str_table_hash` does **not**
follow the spec's recurrence "for every j from len-1 down to 0 in steps of
-step": at the 33-byte string `"a"*33` (`step = 2`) the source loop stops
while `index >= step`, skipping the spec's final update at `j = 0`, and the
two values differ. -/
theorem strTableHash_ne_specStrHash_at_33a :
    strTableHash (List.replicate 33 97)
      ≠ specStrHash 0x645DBFCD (List.replicate 33 97) := by
  decide

/-- C4 (amended): `str_table_hash(value)` starts from
`hash = 0x645DBFCD XOR len` with `step = (len >> 5) + 1` and applies
`hash ^= (hash << 5) + (hash >> 2) + byte[j]` (32-bit wrapping) for
`j = len-1, len-1-step, …` — but only while the source's counter stays
`≥ step`, i.e. for exactly `len / step` updates (for `len ≤ 32` this is the
spec's "downto 0" recurrence; beyond that the trailing indices below
`step - 1` are not visited) — and a string key's table position is this hash
`AND (2^loglen - 1)`. -/
theorem strTableHash_foldl_and_position (bytes : List Nat) :
    (strTableHash bytes =
      List.foldl
        (fun h k => hashMix h
          (bytes.getD (bytes.length - 1 - k * (bytes.length / 2 ^ 5 + 1)) 0))
        (Nat.xor 0x645DBFCD bytes.length)
        (List.range (bytes.length / (bytes.length / 2 ^ 5 + 1))))
    ∧ ∀ loglen : Nat,
        Key.position (.name bytes) loglen
          = Nat.land (strTableHash bytes) (mask loglen) := by
  constructor
  · exact strHashGo_eq_foldl bytes _ (by omega) bytes.length bytes.length _
      le_rfl
  · intro loglen
    rfl

/-- C5: `int_table_hash(v, loglen)` is `0` whenever `loglen = 0` for every
integer `v`; for `loglen > 0` (within the spec's `loglen ≤ 30` domain) it is
`v mod mask` as unsigned for `v ≥ 0` and `unsigned(v) mod mask` (with
`unsigned(v) = v + 2^32`) for `v < 0`, where `mask = 2^loglen - 1` — the
reduction is modulo `mask`, not `mask + 1`. -/
theorem intTableHash_characterization :
    (∀ v : Int, intTableHash v 0 = 0)
    ∧ ∀ (v : Int) (loglen : Nat), 0 < loglen → loglen ≤ 30 →
        mask loglen = 2 ^ loglen - 1
        ∧ (0 ≤ v → intTableHash v loglen = v.toNat % mask loglen)
        ∧ (v < 0 → -2 ^ 31 ≤ v →
            intTableHash v loglen = (v + 2 ^ 32).toNat % mask loglen) := by
  refine ⟨fun v => by simp [intTableHash], ?_⟩
  intro v loglen hpos h30
  have hmpos : 0 < mask loglen := mask_pos hpos
  refine ⟨rfl, ?_, ?_⟩
  · intro hv
    unfold intTableHash
    have h0 : ¬ loglen = 0 := by omega
    rw [if_neg h0, if_pos hv]
    have hcast : v % (mask loglen : Int) = ((v.toNat % mask loglen : Nat) : Int) := by
      push_cast
      rw [Int.toNat_of_nonneg hv]
    rw [hcast, toU32_of_small (by positivity) ?_, Int.toNat_natCast]
    have : v.toNat % mask loglen < mask loglen := Nat.mod_lt _ hmpos
    have := mask_lt_u32 h30
    exact_mod_cast by omega
  · intro hv hlo
    unfold intTableHash
    have h0 : ¬ loglen = 0 := by omega
    have h1 : ¬ 0 ≤ v := by omega
    rw [if_neg h0, if_neg h1]
    congr 1
    unfold toU32
    have : v % 2 ^ 32 = v + 2 ^ 32 := by omega
    rw [this]

/-- C10: every key's `position` is total and in range: it is `< 2^loglen`
for every key and every `loglen ≤ 30` and equals `0` at `loglen = 0`; the
`loglen == 0` early return means `int_table_hash` never takes a remainder by
zero (its checked variant always returns `some`), and the
`unreachable_unchecked` branch of `str_table_hash_with_seed` is never
reached for any input (its checked variant always returns `some`). -/
theorem keyPosition_safe (loglen : Nat) (h30 : loglen ≤ 30) :
    (∀ k : Key, Key.position k loglen < 2 ^ loglen
        ∧ (loglen = 0 → Key.position k loglen = 0))
    ∧ (∀ v : Int, intTableHashChecked v loglen = some (intTableHash v loglen))
    ∧ (∀ seed bytes, strTableHashWithSeedChecked seed bytes
          = some (strTableHashWithSeed seed bytes)) := by
  refine ⟨?_, ?_, ?_⟩
  · intro k
    constructor
    · exact position_lt k loglen h30
    · intro h0
      subst h0
      match k with
      | .index v => simp [Key.position, intTableHash]
      | .name bytes =>
        show Nat.land (strTableHash bytes) (mask 0) = 0
        have : mask 0 = 0 := rfl
        rw [this]
        exact Nat.and_zero _
  · intro v
    unfold intTableHashChecked intTableHash
    by_cases h0 : loglen = 0
    · rw [if_pos h0, if_pos h0]
    · have : mask loglen ≠ 0 := (mask_pos (Nat.pos_of_ne_zero h0)).ne'
      rw [if_neg h0, if_neg h0, if_neg this]
      by_cases hv : 0 ≤ v
      · rw [if_pos hv, if_pos hv]
      · rw [if_neg hv, if_neg hv]
  · intro seed bytes
    exact strHashGoChecked_eq_some bytes _ (by omega) bytes.length
      bytes.length _ le_rfl

/-- Witness for `intTableHash_characterization`: at `v = -5`, `loglen = 3`
the negative branch reduces the unsigned value `2^32 - 5` modulo `mask = 7`,
giving `6`. -/
theorem intTableHash_characterization_witness :
    intTableHash (-5) 3 = ((-5 : Int) + 2 ^ 32).toNat % mask 3
      ∧ intTableHash (-5) 3 = 6 :=
  ⟨((intTableHash_characterization.2 (-5) 3 (by decide) (by decide)).2.2
      (by decide) (by decide)),
    by decide⟩

/-- Witness for `keyPosition_safe`: concrete checks at `loglen = 3`. -/
theorem keyPosition_safe_witness :
    (Key.position (.name [97]) 3 < 2 ^ 3)
      ∧ intTableHashChecked (-5) 3 = some (intTableHash (-5) 3) := by
  have h := keyPosition_safe 3 (by decide)
  exact ⟨(h.1 (.name [97])).1, h.2.1 (-5)⟩

/-! ## The associative table -/

/-- Modelled from the spec, §3 (`AssocItem` lives in the missing
`table_iter` module; its shape — `Live { key, value, link }` /
`Dead { link }` with a signed 32-bit `link` — is fixed by the spec and by
every use in `assoc.rs`). -/
inductive AssocItem (V : Type) : Type
  | dead (link : Int)
  | live (key : Key) (value : Option V) (link : Int)
  deriving DecidableEq

/-- The `link` field shared by both variants. -/
def AssocItem.link : AssocItem V → Int
  | .dead l => l
  | .live _ _ l => l

/-- `Item::main_position`: `None` for `Dead`, the key's position for
`Live`. -/
def AssocItem.mainPosition : AssocItem V → Nat → Option Nat
  | .dead _, _ => none
  | .live key _ _, loglen => some (key.position loglen)

/-- `Item::relocate(old_index, new_index)`: a nonzero outgoing link is
adjusted by `old_index as i32 - new_index as i32` with `i32` (wrapping)
arithmetic; a zero link (end of chain) is left alone. -/
def AssocItem.relocate : AssocItem V → Nat → Nat → AssocItem V
  | .dead l, oldIndex, newIndex =>
    if l = 0 then .dead l
    else .dead (wrap32 (l + (oldIndex : Int) - (newIndex : Int)))
  | .live k v l, oldIndex, newIndex =>
    if l = 0 then .live k v l
    else .live k v (wrap32 (l + (oldIndex : Int) - (newIndex : Int)))

/-- `Item::relocate_link(old_index, new_index)`: a nonzero incoming link is
adjusted by `new_index as i32 - old_index as i32`, `i32` wrapping. -/
def AssocItem.relocateLink : AssocItem V → Nat → Nat → AssocItem V
  | .dead l, oldIndex, newIndex =>
    if l = 0 then .dead l
    else .dead (wrap32 (l + (newIndex : Int) - (oldIndex : Int)))
  | .live k v l, oldIndex, newIndex =>
    if l = 0 then .live k v l
    else .live k v (wrap32 (l + (newIndex : Int) - (oldIndex : Int)))

/-- The associative part: an optional cell vector (present iff the capacity
is positive; the struct invariant keeps its length a power of two) and the
descending `last_free` cursor. -/
structure Table (V : Type) : Type where
  items : Option (List (Option (AssocItem V)))
  lastFree : Nat
  deriving DecidableEq

/-- `Table::new(loglen)`. -/
def Table.new (V : Type) (loglen : Option Nat) : Table V :=
  let size := iexp2 loglen
  { items := if 0 < size then some (List.replicate size none) else none
    lastFree := size }

/-- `Table::loglen`: recover `loglen` from the cell count. -/
def Table.loglen (t : Table V) : Option Nat :=
  t.items.bind fun items => ilog2Exact items.length

/-- `Table::len`. -/
def Table.len (t : Table V) : Nat :=
  match t.items with
  | some items => items.length
  | none => 0

/-- The insert-side item of `TableBuilder` (`InsertItem` in the source):
either a `Dead` cell pinned to a precomputed `position`, or a `Live`
key/value. -/
inductive InsertItem (V : Type) : Type
  | dead (position : Nat)
  | live (key : Key) (value : Option V)
  deriving DecidableEq

/-- `InsertItem::position`: the dead variant masks its stored position, the
live variant hashes its key. -/
def InsertItem.position : InsertItem V → Nat → Nat
  | .dead p, loglen => Nat.land p (mask loglen)
  | .live key _, loglen => key.position loglen

/-- `InsertItem::into_item(link)`. -/
def InsertItem.intoItem : InsertItem V → Int → AssocItem V
  | .dead _, link => .dead link
  | .live key value, link => .live key value link

/-- `TableBuilder::find_free_index`: decrement `last_free`, returning the
first empty cell found; `none` when the cursor hits zero (the caller panics)
or an index is out of bounds (the slice access panics). -/
def findFreeIndex (items : List (Option (AssocItem V))) : Nat → Option Nat
  | 0 => none
  | lf + 1 =>
    if lf < items.length then
      if (items.getD lf none).isNone then some lf else findFreeIndex items lf
    else none

/-- The chain walk of `insert_item`'s squatter case: from `prev = other`,
follow links until the cell whose link leads to `main`; `none` models the
panics (empty cell, zero link, `checked_add_signed` overflow, out-of-bounds
access) and — via the fuel, which the caller sets to the cell count and
which a valid table never exhausts — the divergence of the source's loop on
a cyclic chain. -/
def chainFindPrev (items : List (Option (AssocItem V))) (main : Nat) :
    Nat → Nat → Option Nat
  | _, 0 => none
  | prev, fuel + 1 =>
    match items.getD prev none with
    | none => none
    | some it =>
      if it.link = 0 then none
      else
        match checkedAddSigned prev it.link with
        | none => none
        | some next =>
          if next = main then some prev
          else chainFindPrev items main next fuel

/-- `TableBuilder::insert_item`.  `none` collects every panic of the source
(no capacity, no free cell, broken-invariant walk, out-of-bounds index). -/
def insertItem (t : Table V) (item : InsertItem V) : Option (Table V) :=
  match t.loglen with
  | none => none
  | some loglen =>
    match t.items with
    | none => none
    | some items =>
      let mainIndex := item.position loglen
      if mainIndex < items.length then
        match items.getD mainIndex none with
        | none =>
          some { t with
            items := some (items.set mainIndex (some (item.intoItem 0))) }
        | some incumbent =>
          match findFreeIndex items t.lastFree with
          | none => none
          | some freeIndex =>
            let otherIndex := (incumbent.mainPosition loglen).getD mainIndex
            if otherIndex = mainIndex then
              let link := wrap32 ((freeIndex : Int) - (mainIndex : Int))
              some
                { items := some
                    ((items.set mainIndex (some (item.intoItem link))).set
                      freeIndex (some (incumbent.relocate mainIndex freeIndex)))
                  lastFree := freeIndex }
            else
              match chainFindPrev items mainIndex otherIndex items.length with
              | none => none
              | some prevIndex =>
                let items1 :=
                  (items.set mainIndex (some (item.intoItem 0))).set
                    freeIndex (some (incumbent.relocate mainIndex freeIndex))
                match items1.getD prevIndex none with
                | none => none
                | some prevItem =>
                  some
                    { items := some (items1.set prevIndex
                        (some (prevItem.relocateLink mainIndex freeIndex)))
                      lastFree := freeIndex }
      else none

/-- `TableBuilder::insert(key, value)`. -/
def insert (t : Table V) (key : Key) (value : Option V) : Option (Table V) :=
  insertItem t (.live key value)

/-- `TableBuilder::insert_dead(key)` (the `loglen` unwrap panics on a
zero-capacity table). -/
def insertDead (t : Table V) (key : Key) : Option (Table V) :=
  match t.loglen with
  | none => none
  | some loglen => insertItem t (.dead (key.position loglen))

/-- A whole programmatic build: `TableBuilder::new(loglen)` followed by
`insert_item` for each list element (`none` as soon as one insert
panics). -/
def buildFromList (V : Type) (loglen : Option Nat)
    (inserts : List (InsertItem V)) : Option (Table V) :=
  inserts.foldlM insertItem (Table.new V loglen)

/-- `TableLoadBuilder::insert(index, item)`: place the item verbatim at its
cell; `none` models the out-of-bounds panic and the
`assert!(old_item.is_none())`. -/
def loadInsert (t : Table V) (index : Nat) (item : AssocItem V) :
    Option (Table V) :=
  match t.items with
  | none => none
  | some items =>
    if index < items.length then
      match items.getD index none with
      | none => some { t with items := some (items.set index (some item)) }
      | some _ => none
    else none

/-- `TableLoadBuilder::set_last_free`. -/
def setLastFree (t : Table V) (lastFree : Nat) : Table V :=
  { t with lastFree := lastFree }

deriving instance DecidableEq for Except

/-- The initial `unvalidated` vector of `validate_positions`: empty cells
map to `none`, items to their main position (a `Dead` item's main position
is "unknown — treat as self", i.e. the own index). -/
def initUnvalidated (items : List (Option (AssocItem V))) (loglen : Nat) :
    List (Option Nat) :=
  items.mapIdx fun index cell =>
    cell.map fun it => (it.mainPosition loglen).getD index

/-- The inner loop of `validate_positions`: walk the chain rooted at
`main`, clearing every visited entry that still carries `some main`; stop at
an empty cell or zero link; report out-of-range links and chains of `len` or
more steps.  The entry fuel is `len - 1`, matching the source's
`steps ≥ len` counter check, which fires after the `len`-th link is
followed. -/
def chainWalk (items : List (Option (AssocItem V))) (len main : Nat)
    (fuel position : Nat) (unval : List (Option Nat)) :
    Except String (List (Option Nat)) :=
  let unval' := if unval.getD position none = some main
    then unval.set position none else unval
  match items.getD position none with
  | none => .ok unval'
  | some it =>
    if it.link = 0 then .ok unval'
    else
      match checkedAddSigned position it.link with
      | none => .error "assoc node link should lead within bounds"
      | some next =>
        if next < len then
          match fuel with
          | 0 => .error "assoc node chain should not form a loop"
          | fuel' + 1 => chainWalk items len main fuel' next unval'
        else .error "assoc node link should lead within bounds"

/-- The outer loop of `validate_positions`: for each candidate main
position in cell order, if the entry still carries itself, walk its
chain. -/
def validateOuter (items : List (Option (AssocItem V))) (len : Nat) :
    List Nat → List (Option Nat) → Except String (List (Option Nat))
  | [], unval => .ok unval
  | p :: ps, unval =>
    if unval.getD p none = some p then
      match chainWalk items len p (len - 1) p unval with
      | .error e => .error e
      | .ok unval' => validateOuter items len ps unval'
    else validateOuter items len ps unval

/-- `Table::validate_positions`.  (On a cell count that is no power of two
the source hits `unreachable!`, modelled as a distinct error; no table of
this development reaches it.) -/
def validatePositions (t : Table V) : Except String Unit :=
  match t.items with
  | none => .ok ()
  | some items =>
    match ilog2Exact items.length with
    | none => .error "unreachable: table size is not a power of two"
    | some loglen =>
      let len := iexp2 (some loglen)
      match validateOuter items len (List.range len)
          (initUnvalidated items loglen) with
      | .error e => .error e
      | .ok unval =>
        if unval.all Option.isNone then .ok ()
        else .error "table key should be in a valid position"

/-- `TableLoadBuilder::build`: the size check, the `last_free` check, then
`validate_positions`. -/
def loadBuild (t : Table V) : Except String (Table V) :=
  if 2 ^ 32 - 1 < t.len then .error "the table should not be that large"
  else if t.len < t.lastFree then
    .error "last free index should not exceed table size"
  else
    match validatePositions t with
    | .error e => .error e
    | .ok _ => .ok t

section Wrap32Lemmas

theorem wrap32_eq_self {x : Int} (h1 : -2 ^ 31 ≤ x) (h2 : x < 2 ^ 31) :
    wrap32 x = x := by
  unfold wrap32
  omega

end Wrap32Lemmas

section LinkLemmas

theorem link_relocate (it : AssocItem V) (o n : Nat) :
    (it.relocate o n).link =
      if it.link = 0 then 0 else wrap32 (it.link + (o : Int) - n) := by
  cases it with
  | dead l =>
    by_cases h : l = 0 <;> simp [AssocItem.relocate, AssocItem.link, h]
  | live k v l =>
    by_cases h : l = 0 <;> simp [AssocItem.relocate, AssocItem.link, h]

theorem link_relocateLink (it : AssocItem V) (o n : Nat) :
    (it.relocateLink o n).link =
      if it.link = 0 then 0 else wrap32 (it.link + (n : Int) - o) := by
  cases it with
  | dead l =>
    by_cases h : l = 0 <;> simp [AssocItem.relocateLink, AssocItem.link, h]
  | live k v l =>
    by_cases h : l = 0 <;> simp [AssocItem.relocateLink, AssocItem.link, h]

end LinkLemmas

/-- C9 (corrected claim, counterexample): `relocate(old, new)` does **not**
adjust every link by `old - new`: a zero link (the end-of-chain marker) is
left unchanged, as at `old = 2`, `new = 5` on a dead item with link `0`. -/
theorem relocate_counterexample :
    (AssocItem.relocate (V := Unit) (.dead 0) 2 5).link
      ≠ (AssocItem.dead (V := Unit) 0).link + ((2 : Int) - (5 : Int)) := by
  decide

/-- C9 (amended): for every item and every pair of cell indices, `relocate`
adjusts a **nonzero** outgoing link by adding `old - new` and
`relocate_link` adjusts a nonzero incoming link by adding `new - old` (both
in wrapping `i32` arithmetic, hence exactly whenever the result stays in
`i32` range, as it does for every in-table index pair); a zero link marks
end-of-chain and is preserved by both. -/
theorem relocate_link_adjustment (it : AssocItem V) (old new : Nat) :
    ((it.relocate old new).link =
        if it.link = 0 then 0 else wrap32 (it.link + (old : Int) - new))
    ∧ ((it.relocateLink old new).link =
        if it.link = 0 then 0 else wrap32 (it.link + (new : Int) - old))
    ∧ (it.link ≠ 0 → -2 ^ 31 ≤ it.link + (old : Int) - new →
        it.link + (old : Int) - new < 2 ^ 31 →
        (it.relocate old new).link = it.link + (old : Int) - new)
    ∧ (it.link ≠ 0 → -2 ^ 31 ≤ it.link + (new : Int) - old →
        it.link + (new : Int) - old < 2 ^ 31 →
        (it.relocateLink old new).link = it.link + (new : Int) - old) := by
  have h1 := link_relocate it old new
  have h2 := link_relocateLink it old new
  refine ⟨h1, h2, ?_, ?_⟩
  · intro hnz hlo hhi
    rw [h1, if_neg hnz, wrap32_eq_self hlo hhi]
  · intro hnz hlo hhi
    rw [h2, if_neg hnz, wrap32_eq_self hlo hhi]

/-- Witness for `relocate_link_adjustment`: a dead item with link `7`
relocated from cell `10` to cell `3` ends with link `14 = 7 + 10 - 3`. -/
theorem relocate_link_adjustment_witness :
    (AssocItem.relocate (V := Unit) (.dead 7) 10 3).link = 7 + (10 : Int) - 3
      ∧ (AssocItem.relocate (V := Unit) (.dead 7) 10 3).link = 14 :=
  ⟨(relocate_link_adjustment (V := Unit) (.dead 7) 10 3).2.2.1
      (by decide) (by decide) (by decide),
    by decide⟩

/-! ## Insertion preserves every item -/

/-- The link-independent payload of a cell item: its deadness or its
key/value pair.  Relocation changes only the link, so it preserves this. -/
inductive ItemContent (V : Type) : Type
  | dead
  | live (key : Key) (value : Option V)
  deriving DecidableEq

/-- The content carried by a placed item. -/
def AssocItem.content : AssocItem V → ItemContent V
  | .dead _ => .dead
  | .live key value _ => .live key value

/-- The content carried by an item to insert. -/
def InsertItem.content : InsertItem V → ItemContent V
  | .dead _ => .dead
  | .live key value => .live key value

/-- The multiset of contents of a table's occupied cells. -/
def tableContents (t : Table V) : Multiset (ItemContent V) :=
  match t.items with
  | none => 0
  | some items => ↑(items.filterMap (Option.map AssocItem.content))

theorem content_relocate (it : AssocItem V) (o n : Nat) :
    (it.relocate o n).content = it.content := by
  cases it <;> simp only [AssocItem.relocate] <;> split <;> rfl

theorem content_relocateLink (it : AssocItem V) (o n : Nat) :
    (it.relocateLink o n).content = it.content := by
  cases it <;> simp only [AssocItem.relocateLink] <;> split <;> rfl

theorem content_intoItem (it : InsertItem V) (link : Int) :
    (it.intoItem link).content = it.content := by
  cases it <;> rfl

section ListMultisetLemmas

variable {α β : Type _}

theorem getD_some_lt_length {l : List α} {i : Nat} {d x : α}
    (h : l.getD i d = x) (hx : x ≠ d) : i < l.length := by
  by_contra hge
  rw [List.getD_eq_default _ _ (by omega)] at h
  exact hx h.symm

/-- Writing one cell trades its old `filterMap` contribution for the new
one, as multisets. -/
theorem filterMap_set_multiset (f : α → Option β) :
    ∀ (l : List α) (j : Nat), j < l.length → ∀ v : α,
      (↑((l.set j v).filterMap f) : Multiset β) + ↑(f (l.getD j v)).toList
        = ↑(l.filterMap f) + ↑(f v).toList := by
  intro l
  induction l with
  | nil => intro j hj; simp at hj
  | cons a l ih =>
    intro j hj v
    match j with
    | 0 =>
      simp only [List.set_cons_zero, List.getD_cons_zero]
      rcases h1 : f a with _ | b1 <;> rcases h2 : f v with _ | b2 <;>
        simp [List.filterMap_cons, h1, h2, ← Multiset.cons_coe,
          ← Multiset.singleton_add] <;>
        abel
    | j + 1 =>
      simp only [List.set_cons_succ, List.getD_cons_succ]
      have ihj := ih j (by simpa using hj) v
      rcases h1 : f a with _ | b1
      · simpa [List.filterMap_cons, h1] using ihj
      · simp only [List.filterMap_cons, h1, ← Multiset.cons_coe,
          ← Multiset.singleton_add, add_assoc]
        rw [ihj]

end ListMultisetLemmas

section FindFreeLemmas

/-- What a successful `find_free_index` guarantees: the returned cell is in
bounds, empty, below the old cursor, and every cell between it and the old
cursor is occupied. -/
theorem findFreeIndex_spec (items : List (Option (AssocItem V))) :
    ∀ lf f, findFreeIndex items lf = some f →
      f < items.length ∧ f < lf ∧ items.getD f none = none
        ∧ ∀ i, f < i → i < lf → items.getD i none ≠ none := by
  intro lf
  induction lf with
  | zero => intro f h; simp [findFreeIndex] at h
  | succ lf ih =>
    intro f h
    rw [findFreeIndex] at h
    by_cases hlt : lf < items.length
    · rw [if_pos hlt] at h
      rcases hcell : (items.getD lf none).isNone with _ | _
      · rw [hcell] at h
        simp only [Bool.false_eq_true, if_false] at h
        obtain ⟨h1, h2, h3, h4⟩ := ih f h
        refine ⟨h1, by omega, h3, ?_⟩
        intro i hfi hilf
        by_cases hi : i = lf
        · subst hi
          intro hEq
          rw [hEq] at hcell
          simp at hcell
        · exact h4 i hfi (by omega)
      · rw [hcell] at h
        simp only [if_true] at h
        cases h
        refine ⟨hlt, by omega, Option.isNone_iff_eq_none.mp hcell, ?_⟩
        intro i hfi hilf
        omega
    · rw [if_neg hlt] at h
      cases h

end FindFreeLemmas

theorem tableContents_mk (items : List (Option (AssocItem V))) (lf : Nat) :
    tableContents { items := some items, lastFree := lf }
      = ↑(items.filterMap (Option.map AssocItem.content)) := rfl

/-- C7 core: a successful `insert_item` adds the new item's content to the
table and keeps every previously present item's content (as a multiset over
cells): nothing — in particular no `Dead` sentinel — is ever discarded. -/
theorem insertItem_contents (t : Table V) (item : InsertItem V)
    (t' : Table V) (h : insertItem t item = some t') :
    tableContents t' = item.content ::ₘ tableContents t := by
  unfold insertItem at h
  generalize hgl : t.loglen = gl at h
  match gl with
  | none => cases h
  | some loglen =>
    simp only at h
    generalize hitems : t.items = itemsOpt at h
    match itemsOpt with
    | none => cases h
    | some items =>
      simp only at h
      by_cases hmain : item.position loglen < items.length
      · rw [if_pos hmain] at h
        have hcontents : tableContents t
            = ↑(items.filterMap (Option.map AssocItem.content)) := by
          unfold tableContents
          rw [hitems]
        generalize hcell : items.getD (item.position loglen) none = cell at h
        match cell with
        | none =>
          cases h
          have hms := filterMap_set_multiset (Option.map AssocItem.content)
            items (item.position loglen) hmain (some (item.intoItem 0))
          rw [List.getD_eq_getElem items _ hmain] at hms
          rw [List.getD_eq_getElem items _ hmain] at hcell
          rw [hcell] at hms
          have hms' : (↑((items.set (item.position loglen)
                (some (item.intoItem 0))).filterMap
                (Option.map AssocItem.content)) : Multiset (ItemContent V))
              = ↑(items.filterMap (Option.map AssocItem.content))
                + {item.content} := by
            simpa [content_intoItem, Option.toList] using hms
          rw [tableContents_mk, hcontents, hms', ← Multiset.singleton_add,
            add_comm]
        | some incumbent =>
          generalize hff : findFreeIndex items t.lastFree = ff at h
          match ff with
          | none => cases h
          | some freeIndex =>
            obtain ⟨hflt, _, hfempty, _⟩ :=
              findFreeIndex_spec items t.lastFree freeIndex hff
            have hfm : freeIndex ≠ item.position loglen := by
              intro hEq
              rw [hEq, hcell] at hfempty
              cases hfempty
            simp only at h
            have step1 : ∀ newItem : AssocItem V, newItem.content = item.content →
                (↑((items.set (item.position loglen) (some newItem)).filterMap
                    (Option.map AssocItem.content)) : Multiset (ItemContent V))
                  + {incumbent.content}
                = ↑(items.filterMap (Option.map AssocItem.content))
                  + {item.content} := by
              intro newItem hnew
              have hms := filterMap_set_multiset (Option.map AssocItem.content)
                items (item.position loglen) hmain (some newItem)
              rw [List.getD_eq_getElem items _ hmain] at hms
              rw [List.getD_eq_getElem items _ hmain] at hcell
              rw [hcell] at hms
              simpa [hnew, Option.toList] using hms
            have step2 : ∀ (newItem : AssocItem V),
                (↑(((items.set (item.position loglen) (some newItem)).set
                      freeIndex
                      (some (incumbent.relocate (item.position loglen)
                        freeIndex))).filterMap
                    (Option.map AssocItem.content)) : Multiset (ItemContent V))
                = ↑((items.set (item.position loglen)
                      (some newItem)).filterMap (Option.map AssocItem.content))
                  + {incumbent.content} := by
              intro newItem
              have hflt' : freeIndex
                  < (items.set (item.position loglen) (some newItem)).length := by
                simpa using hflt
              have hms := filterMap_set_multiset (Option.map AssocItem.content)
                (items.set (item.position loglen) (some newItem)) freeIndex
                hflt'
                (some (incumbent.relocate (item.position loglen) freeIndex))
              rw [List.getD_eq_getElem _ _ hflt'] at hms
              rw [List.getElem_set_of_ne (by omega) _ hflt'] at hms
              rw [← List.getD_eq_getElem items _ hflt, hfempty] at hms
              simpa [content_relocate, Option.toList] using hms
            by_cases hother :
                (incumbent.mainPosition loglen).getD (item.position loglen)
                  = item.position loglen
            · rw [if_pos hother] at h
              cases h
              rw [tableContents_mk, hcontents, step2,
                step1 _ (content_intoItem item _), ← Multiset.singleton_add,
                add_comm]
            · rw [if_neg hother] at h
              generalize hprev : chainFindPrev items (item.position loglen)
                ((incumbent.mainPosition loglen).getD (item.position loglen))
                items.length = pr at h
              match pr with
              | none => cases h
              | some prevIndex =>
                simp only at h
                generalize hpcell :
                  ((items.set (item.position loglen)
                      (some (item.intoItem 0))).set freeIndex
                      (some (incumbent.relocate (item.position loglen)
                        freeIndex))).getD prevIndex none = pcell at h
                match pcell with
                | none => cases h
                | some prevItem =>
                  cases h
                  have hplt : prevIndex
                      < ((items.set (item.position loglen)
                          (some (item.intoItem 0))).set freeIndex
                          (some (incumbent.relocate (item.position loglen)
                            freeIndex))).length :=
                    getD_some_lt_length hpcell (by simp)
                  have hms3 := filterMap_set_multiset
                    (Option.map AssocItem.content)
                    ((items.set (item.position loglen)
                        (some (item.intoItem 0))).set freeIndex
                        (some (incumbent.relocate (item.position loglen)
                          freeIndex)))
                    prevIndex hplt
                    (some (prevItem.relocateLink (item.position loglen)
                      freeIndex))
                  rw [List.getD_eq_getElem _ _ hplt] at hms3
                  rw [List.getD_eq_getElem _ _ hplt] at hpcell
                  rw [hpcell] at hms3
                  simp only [Option.map_some', content_relocateLink] at hms3
                  have hms3' : (↑((((items.set (item.position loglen)
                        (some (item.intoItem 0))).set freeIndex
                        (some (incumbent.relocate (item.position loglen)
                          freeIndex))).set prevIndex
                        (some (prevItem.relocateLink (item.position loglen)
                          freeIndex))).filterMap
                        (Option.map AssocItem.content))
                        : Multiset (ItemContent V)) + {prevItem.content}
                      = ↑(((items.set (item.position loglen)
                          (some (item.intoItem 0))).set freeIndex
                          (some (incumbent.relocate (item.position loglen)
                            freeIndex))).filterMap
                          (Option.map AssocItem.content))
                        + {prevItem.content} := by
                    simpa [Option.toList] using hms3
                  have hcancel := add_right_cancel hms3'

                  rw [tableContents_mk, hcontents, hcancel, step2,
                    step1 _ (content_intoItem item _),
                    ← Multiset.singleton_add, add_comm]
      · rw [if_neg hmain] at h
        cases h

/-- C7: no call to `TableBuilder::insert` or `TableBuilder::insert_dead`
discards an existing item (in particular it never overwrites a `Dead`
cell's content): a successful insert yields exactly the old multiset of
cell contents plus the one new item. -/
theorem insert_never_discards (t t' : Table V) (key : Key)
    (value : Option V) :
    (insert t key value = some t' →
      tableContents t' = ItemContent.live key value ::ₘ tableContents t)
    ∧ (insertDead t key = some t' →
      tableContents t' = ItemContent.dead ::ₘ tableContents t) := by
  constructor
  · intro h
    exact insertItem_contents t _ t' h
  · intro h
    unfold insertDead at h
    generalize hgl : t.loglen = gl at h
    match gl with
    | none => cases h
    | some loglen => exact insertItem_contents t _ t' h

/-! ## The chain-layout invariant

The layouts reachable by `TableBuilder` satisfy a structural invariant
(`TableInv`) on the link graph of the cells, preserved by every successful
`insert_item` and sufficient for `validate_positions` to accept. -/

/-- The putative main position of the item in cell `i`, as
`validate_positions` computes it: a live item hashes its key, a dead item
counts as its own cell. -/
def cellPM (loglen i : Nat) (it : AssocItem V) : Nat :=
  (it.mainPosition loglen).getD i

/-- The link graph: `Edge items i j` when cell `i` holds an item whose
nonzero link leads, in bounds, to cell `j`. -/
def Edge (items : List (Option (AssocItem V))) (i j : Nat) : Prop :=
  ∃ it, items.getD i none = some it ∧ it.link ≠ 0
    ∧ (i : Int) + it.link = (j : Int) ∧ j < items.length

/-- The layout invariant of builder-produced tables. -/
structure TableInv (loglen : Nat) (items : List (Option (AssocItem V)))
    (lastFree : Nat) : Prop where
  length_eq : items.length = 2 ^ loglen
  lastFree_le : lastFree ≤ items.length
  free_above : ∀ i, lastFree ≤ i → i < items.length →
      items.getD i none ≠ none
  links_in_bounds : ∀ i it, items.getD i none = some it → it.link ≠ 0 →
      0 ≤ (i : Int) + it.link ∧ (i : Int) + it.link < (items.length : Int)
  target_occupied : ∀ i j, Edge items i j → items.getD j none ≠ none
  indeg_unique : ∀ i i' j, Edge items i j → Edge items i' j → i = i'
  acyclic : ∃ rank : Nat → Nat, ∀ i j, Edge items i j → rank j < rank i
  root_ok : ∀ i it, items.getD i none = some it →
      ∃ rt, items.getD (cellPM loglen i it) none = some rt
        ∧ cellPM loglen (cellPM loglen i it) rt = cellPM loglen i it
  reach_pm : ∀ i it, items.getD i none = some it →
      Relation.ReflTransGen (Edge items) (cellPM loglen i it) i

section GetDSetLemmas

variable {α : Type _}

theorem getD_set_self {l : List α} {a : Nat} (h : a < l.length) (x d : α) :
    (l.set a x).getD a d = x := by
  rw [List.getD_eq_getElem _ _ (by simpa using h)]
  exact List.getElem_set_self ..

theorem getD_set_ne {l : List α} {a i : Nat} (h : i ≠ a) (x d : α) :
    (l.set a x).getD i d = l.getD i d := by
  by_cases hi : i < l.length
  · rw [List.getD_eq_getElem _ _ (by simpa using hi),
      List.getD_eq_getElem _ _ hi]
    exact List.getElem_set_of_ne (Ne.symm h) x (by simpa using hi)
  · rw [List.getD_eq_default _ _ (by simpa using (by omega : l.length ≤ i)),
      List.getD_eq_default _ _ (by omega)]

end GetDSetLemmas

section Ilog2Lemmas

theorem ilog2Exact_pow (l : Nat) : ilog2Exact (2 ^ l) = some l := by
  unfold ilog2Exact
  rw [List.find?_eq_some_iff_getElem]
  refine ⟨by simp, l, by simpa using Nat.lt_succ_of_lt (Nat.lt_two_pow l),
    by simp, ?_⟩
  intro j hj
  simp only [List.getElem_range]
  simp only [Bool.not_eq_true', decide_eq_false_iff_not]
  exact fun hEq => absurd (Nat.pow_right_injective (by omega) hEq) (by omega)

theorem ilog2Exact_eq {n l : Nat} (h : ilog2Exact n = some l) : n = 2 ^ l := by
  unfold ilog2Exact at h
  rw [List.find?_eq_some_iff_getElem] at h
  have h1 := h.1
  simp at h1
  omega

end Ilog2Lemmas

section EdgeLemmas

theorem Edge.functional {items : List (Option (AssocItem V))} {i j j' : Nat}
    (h : Edge items i j) (h' : Edge items i j') : j = j' := by
  obtain ⟨it, hit, _, hsum, _⟩ := h
  obtain ⟨it', hit', _, hsum', _⟩ := h'
  rw [hit] at hit'
  cases hit'
  omega

theorem Edge.src_occupied {items : List (Option (AssocItem V))} {i j : Nat}
    (h : Edge items i j) : items.getD i none ≠ none := by
  obtain ⟨it, hit, _⟩ := h
  rw [hit]
  intro hc
  cases hc

theorem Edge.tgt_lt {items : List (Option (AssocItem V))} {i j : Nat}
    (h : Edge items i j) : j < items.length := h.choose_spec.2.2.2

theorem Edge.src_lt {items : List (Option (AssocItem V))} {i j : Nat}
    (h : Edge items i j) : i < items.length :=
  getD_some_lt_length h.choose_spec.1 (by simp)

/-- A nonzero link of an occupied cell produces an edge (links stay in
bounds by the invariant). -/
theorem edge_of_link {loglen : Nat} {items : List (Option (AssocItem V))}
    {lastFree : Nat} (inv : TableInv loglen items lastFree)
    {i : Nat} {it : AssocItem V} (hit : items.getD i none = some it)
    (hnz : it.link ≠ 0) :
    Edge items i ((i : Int) + it.link).toNat := by
  obtain ⟨hge, hlt⟩ := inv.links_in_bounds i it hit hnz
  exact ⟨it, hit, hnz, by omega, by omega⟩

end EdgeLemmas

section CellPMLemmas

theorem link_intoItem (item : InsertItem V) (lk : Int) :
    (item.intoItem lk).link = lk := by
  cases item <;> rfl

theorem insertPosition_lt (item : InsertItem V) (loglen : Nat)
    (h30 : loglen ≤ 30) : item.position loglen < 2 ^ loglen := by
  match item with
  | .dead p =>
    show Nat.land p (mask loglen) < 2 ^ loglen
    exact lt_of_le_of_lt Nat.and_le_right mask_lt_pow
  | .live k v => exact position_lt k loglen h30

theorem cellPM_intoItem_self (item : InsertItem V) (l : Nat) (link : Int) :
    cellPM l (item.position l) (item.intoItem link) = item.position l := by
  cases item <;> rfl

theorem mainPosition_relocate (it : AssocItem V) (o n loglen : Nat) :
    (it.relocate o n).mainPosition loglen = it.mainPosition loglen := by
  cases it <;> simp only [AssocItem.relocate] <;> split <;> rfl

theorem mainPosition_relocateLink (it : AssocItem V) (o n loglen : Nat) :
    (it.relocateLink o n).mainPosition loglen = it.mainPosition loglen := by
  cases it <;> simp only [AssocItem.relocateLink] <;> split <;> rfl

theorem cellPM_relocate (l i : Nat) (it : AssocItem V) (o n : Nat) :
    cellPM l i (it.relocate o n) = cellPM l i it := by
  unfold cellPM
  rw [mainPosition_relocate]

theorem cellPM_relocateLink (l i : Nat) (it : AssocItem V) (o n : Nat) :
    cellPM l i (it.relocateLink o n) = cellPM l i it := by
  unfold cellPM
  rw [mainPosition_relocateLink]

theorem cellPM_lt {loglen : Nat} (h30 : loglen ≤ 30)
    {items : List (Option (AssocItem V))}
    (hlen : items.length = 2 ^ loglen) {i : Nat} {it : AssocItem V}
    (hit : items.getD i none = some it) :
    cellPM loglen i it < items.length := by
  cases it with
  | dead lk =>
    exact getD_some_lt_length hit (by simp)
  | live k v lk =>
    show k.position loglen < items.length
    rw [hlen]
    exact position_lt k loglen h30

end CellPMLemmas

/-- Case "main position empty" of `insert_item` preserves the layout
invariant: the new item lands at its own main position with link `0`, the
link graph is unchanged. -/
theorem inv_insert_empty {l : Nat} (h30 : l ≤ 30)
    {items : List (Option (AssocItem V))} {lastFree : Nat}
    (inv : TableInv l items lastFree) (item : InsertItem V)
    (hempty : items.getD (item.position l) none = none) :
    TableInv l (items.set (item.position l) (some (item.intoItem 0)))
      lastFree := by
  set main := item.position l with hmainDef
  have hmainlt : main < items.length := by
    rw [inv.length_eq]
    exact insertPosition_lt item l h30
  set items' := items.set main (some (item.intoItem 0)) with hitems'
  have hlen' : items'.length = items.length := by simp [hitems']
  have hget' : ∀ i, items'.getD i none
      = if i = main then some (item.intoItem 0) else items.getD i none := by
    intro i
    by_cases hi : i = main
    · subst hi
      rw [getD_set_self hmainlt, if_pos rfl]
    · rw [getD_set_ne hi, if_neg hi]
  have hedge : ∀ i j, Edge items' i j ↔ Edge items i j := by
    intro i j
    constructor
    · rintro ⟨it, hit, hnz, hsum, hlt⟩
      rw [hget'] at hit
      by_cases hi : i = main
      · rw [if_pos hi] at hit
        cases hit
        exact absurd (link_intoItem item 0) hnz
      · rw [if_neg hi] at hit
        exact ⟨it, hit, hnz, hsum, by rwa [hlen'] at hlt⟩
    · rintro ⟨it, hit, hnz, hsum, hlt⟩
      have hi : i ≠ main := by
        intro hEq
        rw [hEq, hempty] at hit
        cases hit
      exact ⟨it, by rw [hget', if_neg hi]; exact hit, hnz, hsum,
        by rwa [hlen']⟩
  refine ⟨?_, ?_, ?_, ?_, ?_, ?_, ?_, ?_, ?_⟩
  · rw [hlen', inv.length_eq]
  · rw [hlen']
    exact inv.lastFree_le
  · intro i h1 h2
    rw [hget']
    by_cases hi : i = main
    · rw [if_pos hi]
      intro hc
      cases hc
    · rw [if_neg hi]
      exact inv.free_above i h1 (by rwa [hlen'] at h2)
  · intro i it hit hnz
    rw [hget'] at hit
    by_cases hi : i = main
    · rw [if_pos hi] at hit
      cases hit
      exact absurd (link_intoItem item 0) hnz
    · rw [if_neg hi] at hit
      rw [hlen']
      exact inv.links_in_bounds i it hit hnz
  · intro i j hEdge
    have hj := inv.target_occupied i j ((hedge i j).mp hEdge)
    rw [hget']
    by_cases hjm : j = main
    · rw [if_pos hjm]
      intro hc
      cases hc
    · rwa [if_neg hjm]
  · intro i i' j h1 h2
    exact inv.indeg_unique i i' j ((hedge i j).mp h1) ((hedge i' j).mp h2)
  · obtain ⟨rank, hrank⟩ := inv.acyclic
    exact ⟨rank, fun i j h => hrank i j ((hedge i j).mp h)⟩
  · intro i it hit
    rw [hget'] at hit
    by_cases hi : i = main
    · rw [if_pos hi] at hit
      cases hit
      subst hi
      refine ⟨item.intoItem 0, ?_, ?_⟩
      · rw [cellPM_intoItem_self, hget', if_pos rfl]
      · rw [cellPM_intoItem_self]
        exact cellPM_intoItem_self item l 0
    · rw [if_neg hi] at hit
      obtain ⟨rt, hrt, hrtpm⟩ := inv.root_ok i it hit
      have hpm : cellPM l i it ≠ main := by
        intro hEq
        rw [hEq, hempty] at hrt
        cases hrt
      exact ⟨rt, by rw [hget', if_neg hpm]; exact hrt, hrtpm⟩
  · intro i it hit
    rw [hget'] at hit
    by_cases hi : i = main
    · rw [if_pos hi] at hit
      cases hit
      subst hi
      rw [cellPM_intoItem_self]
    · rw [if_neg hi] at hit
      exact Relation.ReflTransGen.mono (fun a b h => (hedge a b).mpr h)
        (inv.reach_pm i it hit)

/-- Case "incumbent at its own main position" of `insert_item` preserves
the layout invariant: the new item takes the main cell, linking to the
incumbent displaced into the free cell, whose outgoing link is relocated. -/
theorem inv_insert_displace_root {l : Nat} (h30 : l ≤ 30)
    {items : List (Option (AssocItem V))} {lastFree : Nat}
    (inv : TableInv l items lastFree) (item : InsertItem V)
    {inc : AssocItem V} {free : Nat}
    (hinc : items.getD (item.position l) none = some inc)
    (hother : cellPM l (item.position l) inc = item.position l)
    (hfree : findFreeIndex items lastFree = some free) :
    TableInv l
      ((items.set (item.position l)
          (some (item.intoItem
            (wrap32 ((free : Int) - (item.position l : Int)))))).set free
        (some (inc.relocate (item.position l) free)))
      free := by
  obtain ⟨hfreelt, hfreelf, hfreeEmpty, hfreeScan⟩ :=
    findFreeIndex_spec items lastFree free hfree
  set main := item.position l with hmainDef
  have hmainlt : main < items.length := by
    rw [inv.length_eq]
    exact insertPosition_lt item l h30
  have hmf : main ≠ free := by
    intro hEq
    rw [hEq, hfreeEmpty] at hinc
    cases hinc
  have hL30 : items.length ≤ 2 ^ 30 := by
    rw [inv.length_eq]
    exact Nat.pow_le_pow_right (by omega) h30
  have hlinkB1 : wrap32 ((free : Int) - (main : Int))
      = (free : Int) - (main : Int) := by
    apply wrap32_eq_self <;> omega
  set newIt := item.intoItem (wrap32 ((free : Int) - (main : Int)))
    with hnewIt
  set inc' := inc.relocate main free with hinc'
  set items2 := (items.set main (some newIt)).set free (some inc')
    with hitems2
  have hlen2 : items2.length = items.length := by simp [hitems2]
  have hget2 : ∀ i, items2.getD i none
      = if i = free then some inc'
        else if i = main then some newIt else items.getD i none := by
    intro i
    by_cases hif : i = free
    · subst hif
      rw [if_pos rfl, hitems2, getD_set_self (by simpa using hfreelt)]
    · rw [if_neg hif, hitems2, getD_set_ne hif]
      by_cases him : i = main
      · subst him
        rw [getD_set_self hmainlt, if_pos rfl]
      · rw [getD_set_ne him, if_neg him]
  have hocc2 : ∀ j, items.getD j none ≠ none → items2.getD j none ≠ none := by
    intro j hj
    rw [hget2]
    by_cases h1 : j = free
    · rw [if_pos h1]
      intro hc
      cases hc
    · rw [if_neg h1]
      by_cases h2 : j = main
      · rw [if_pos h2]
        intro hc
        cases hc
      · rwa [if_neg h2]
  have hnewlink : newIt.link = (free : Int) - (main : Int) := by
    rw [hnewIt, link_intoItem, hlinkB1]
  have hnewlink_nz : newIt.link ≠ 0 := by
    rw [hnewlink]
    intro hc
    exact hmf (by omega)
  -- the incumbent's relocated link, when it had one
  have hinclink : inc.link ≠ 0 →
      inc'.link = inc.link + (main : Int) - (free : Int)
        ∧ 0 ≤ (main : Int) + inc.link
        ∧ (main : Int) + inc.link < (items.length : Int) := by
    intro hnz
    obtain ⟨hb1, hb2⟩ := inv.links_in_bounds main inc hinc hnz
    refine ⟨?_, hb1, hb2⟩
    rw [hinc', link_relocate, if_neg hnz]
    apply wrap32_eq_self <;> omega
  have hincEdge : inc.link ≠ 0 →
      Edge items main (((main : Int) + inc.link).toNat) := by
    intro hnz
    exact edge_of_link inv hinc hnz
  have hedge2 : ∀ i j, Edge items2 i j ↔
      (i = main ∧ j = free) ∨ (i = free ∧ Edge items main j)
        ∨ (i ≠ main ∧ i ≠ free ∧ Edge items i j) := by
    intro i j
    constructor
    · rintro ⟨it, hit, hnz, hsum, hlt⟩
      rw [hlen2] at hlt
      rw [hget2] at hit
      by_cases hif : i = free
      · rw [if_pos hif] at hit
        cases hit
        have hinz : inc.link ≠ 0 := by
          intro hz
          rw [hinc', link_relocate, if_pos hz] at hnz
          exact hnz rfl
        obtain ⟨hrl, hb1, hb2⟩ := hinclink hinz
        refine .inr (.inl ⟨hif, inc, hinc, hinz, ?_, hlt⟩)
        rw [hrl, hif] at hsum
        omega
      · rw [if_neg hif] at hit
        by_cases him : i = main
        · rw [if_pos him] at hit
          cases hit
          subst him
          refine .inl ⟨rfl, ?_⟩
          rw [hnewlink] at hsum
          omega
        · rw [if_neg him] at hit
          exact .inr (.inr ⟨him, hif, it, hit, hnz, hsum, hlt⟩)
    · rintro (⟨hi, hj⟩ | ⟨hi, hEdge⟩ | ⟨him, hif, hEdge⟩)
      · rw [hi, hj]
        refine ⟨newIt, ?_, hnewlink_nz, ?_, by rwa [hlen2]⟩
        · rw [hget2, if_neg hmf, if_pos rfl]
        · rw [hnewlink]
          omega
      · rw [hi]
        obtain ⟨it0, hit0, hnz0, hsum0, hlt0⟩ := hEdge
        rw [hinc] at hit0
        cases hit0
        obtain ⟨hrl, _, _⟩ := hinclink hnz0
        have hjocc : items.getD j none ≠ none :=
          inv.target_occupied main j ⟨inc, hinc, hnz0, hsum0, hlt0⟩
        have hjf : j ≠ free := by
          intro hEq
          rw [hEq, hfreeEmpty] at hjocc
          exact hjocc rfl
        refine ⟨inc', ?_, ?_, ?_, by rwa [hlen2]⟩
        · rw [hget2, if_pos rfl]
        · rw [hrl]
          intro hc
          apply hjf
          omega
        · rw [hrl]
          omega
      · obtain ⟨it0, hit0, hnz0, hsum0, hlt0⟩ := hEdge
        refine ⟨it0, ?_, hnz0, hsum0, by rwa [hlen2]⟩
        rw [hget2, if_neg hif, if_neg him]
        exact hit0
  refine ⟨?_, ?_, ?_, ?_, ?_, ?_, ?_, ?_, ?_⟩
  · rw [hlen2, inv.length_eq]
  · rw [hlen2]
    omega
  · intro i h1 h2
    rw [hlen2] at h2
    by_cases hif : i = free
    · rw [hget2, if_pos hif]
      intro hc
      cases hc
    · apply hocc2
      by_cases hlf : i < lastFree
      · exact hfreeScan i (by omega) hlf
      · exact inv.free_above i (by omega) h2
  · intro i it hit hnz
    rw [hget2] at hit
    rw [hlen2]
    by_cases hif : i = free
    · rw [if_pos hif] at hit
      cases hit
      have hinz : inc.link ≠ 0 := by
        intro hz
        rw [hinc', link_relocate, if_pos hz] at hnz
        exact hnz rfl
      obtain ⟨hrl, hb1, hb2⟩ := hinclink hinz
      rw [hrl, hif]
      constructor <;> omega
    · rw [if_neg hif] at hit
      by_cases him : i = main
      · rw [if_pos him] at hit
        cases hit
        subst him
        rw [hnewlink]
        constructor <;> omega
      · rw [if_neg him] at hit
        exact inv.links_in_bounds i it hit hnz
  · intro i j hEdge
    rcases (hedge2 i j).mp hEdge with ⟨hi, hj⟩ | ⟨hi, hE⟩ | ⟨him, hif, hE⟩
    · rw [hj, hget2, if_pos rfl]
      intro hc
      cases hc
    · exact hocc2 j (inv.target_occupied main j hE)
    · exact hocc2 j (inv.target_occupied i j hE)
  · intro i i' j h1 h2
    rcases (hedge2 i j).mp h1 with ⟨hi, hj⟩ | ⟨hi, hE⟩ | ⟨him, hif, hE⟩ <;>
      rcases (hedge2 i' j).mp h2 with ⟨hi', hj'⟩ | ⟨hi', hE'⟩ | ⟨him', hif', hE'⟩
    · rw [hi, hi']
    · exfalso
      rw [hj] at hE'
      exact inv.target_occupied main free hE' hfreeEmpty
    · exfalso
      rw [hj] at hE'
      exact inv.target_occupied i' free hE' hfreeEmpty
    · exfalso
      rw [hj'] at hE
      exact inv.target_occupied main free hE hfreeEmpty
    · rw [hi, hi']
    · exfalso
      exact him' (inv.indeg_unique main i' j hE hE').symm
    · exfalso
      rw [hj'] at hE
      exact inv.target_occupied i free hE hfreeEmpty
    · exfalso
      exact him (inv.indeg_unique main i j hE' hE).symm
    · exact inv.indeg_unique i i' j hE hE'
  · obtain ⟨rank, hrank⟩ := inv.acyclic
    refine ⟨fun x => if x = main then 2 * rank main + 1
      else if x = free then 2 * rank main else 2 * rank x, ?_⟩
    intro i j hEdge
    dsimp only
    rcases (hedge2 i j).mp hEdge with ⟨hi, hj⟩ | ⟨hi, hE⟩ | ⟨him, hif, hE⟩
    · rw [hi, hj, if_pos rfl, if_neg (Ne.symm hmf), if_pos rfl]
      omega
    · have hjm : j ≠ main := by
        obtain ⟨it0, hit0, hnz0, hsum0, _⟩ := hE
        rw [hinc] at hit0
        cases hit0
        intro hEq
        rw [hEq] at hsum0
        exact hnz0 (by omega)
      have hjf : j ≠ free := by
        intro hEq
        rw [hEq] at hE
        exact inv.target_occupied main free hE hfreeEmpty
      rw [hi, if_neg (Ne.symm hmf), if_pos rfl, if_neg hjm, if_neg hjf]
      have := hrank main j hE
      omega
    · have hjf : j ≠ free := by
        intro hEq
        rw [hEq] at hE
        exact inv.target_occupied i free hE hfreeEmpty
      rw [if_neg him, if_neg hif]
      by_cases hjm : j = main
      · rw [hjm, if_pos rfl]
        have := hrank i main (hjm ▸ hE)
        omega
      · rw [if_neg hjm, if_neg hjf]
        have := hrank i j hE
        omega
  · intro i it hit
    rw [hget2] at hit
    by_cases hif : i = free
    · rw [if_pos hif] at hit
      cases hit
      rw [hif]
      match hincEq : inc with
      | .live k v lk =>
        have hpm : cellPM l free inc' = main := by
          rw [hinc', cellPM_relocate]
          exact hother
        refine ⟨newIt, ?_, ?_⟩
        · rw [hpm, hget2, if_neg hmf, if_pos rfl]
        · rw [hpm, cellPM_intoItem_self]
      | .dead lk =>
        have hpm : cellPM l free inc' = free := by
          rw [hinc', cellPM_relocate]
          rfl
        refine ⟨inc', ?_, ?_⟩
        · rw [hpm, hget2, if_pos rfl]
        · rw [hpm, hpm]
    · rw [if_neg hif] at hit
      by_cases him : i = main
      · rw [if_pos him] at hit
        cases hit
        subst him
        refine ⟨newIt, ?_, ?_⟩
        · rw [cellPM_intoItem_self, hget2, if_neg hmf, if_pos rfl]
        · rw [cellPM_intoItem_self, cellPM_intoItem_self]
      · rw [if_neg him] at hit
        obtain ⟨rt, hrt, hrtpm⟩ := inv.root_ok i it hit
        have hpmf : cellPM l i it ≠ free := by
          intro hEq
          rw [hEq, hfreeEmpty] at hrt
          cases hrt
        by_cases hpmm : cellPM l i it = main
        · rw [hpmm] at hrt
          rw [hinc] at hrt
          cases hrt
          refine ⟨newIt, ?_, ?_⟩
          · rw [hpmm, hget2, if_neg hmf, if_pos rfl]
          · rw [hpmm, cellPM_intoItem_self]
        · refine ⟨rt, ?_, hrtpm⟩
          rw [hget2, if_neg hpmf, if_neg hpmm]
          exact hrt
  · have htrans : ∀ a b, Relation.ReflTransGen (Edge items) a b →
        Relation.ReflTransGen (Edge items2) a b := by
      intro a b hab
      induction hab with
      | refl => exact .refl
      | tail hxy hedge ih =>
        rename_i y z
        by_cases hym : y = main
        · subst hym
          have h1 : Edge items2 main free := (hedge2 main free).mpr (.inl ⟨rfl, rfl⟩)
          have h2 : Edge items2 free z := (hedge2 free z).mpr
            (.inr (.inl ⟨rfl, hedge⟩))
          exact (ih.tail h1).tail h2
        · have hyf : y ≠ free := by
            intro hEq
            subst hEq
            exact hedge.src_occupied hfreeEmpty
          exact ih.tail ((hedge2 y z).mpr (.inr (.inr ⟨hym, hyf, hedge⟩)))
    intro i it hit
    rw [hget2] at hit
    by_cases hif : i = free
    · rw [if_pos hif] at hit
      cases hit
      rw [hif]
      match hincEq : inc with
      | .live k v lk =>
        have hpm : cellPM l free inc' = main := by
          rw [hinc', cellPM_relocate]
          exact hother
        rw [hpm]
        exact Relation.ReflTransGen.single
          ((hedge2 main free).mpr (.inl ⟨rfl, rfl⟩))
      | .dead lk =>
        have hpm : cellPM l free inc' = free := by
          rw [hinc', cellPM_relocate]
          rfl
        rw [hpm]
    · rw [if_neg hif] at hit
      by_cases him : i = main
      · rw [if_pos him] at hit
        cases hit
        subst him
        rw [cellPM_intoItem_self]
      · rw [if_neg him] at hit
        exact htrans _ _ (inv.reach_pm i it hit)

/-- Under the invariant, the predecessor walk of `insert_item` terminates
and finds the cell whose link leads to `main`: paths are rank-decreasing,
so with fuel exceeding the number of lower-ranked cells the source loop
cannot run out. -/
theorem chainFindPrev_finds {l : Nat} {items : List (Option (AssocItem V))}
    {lastFree : Nat} (inv : TableInv l items lastFree) (h30 : l ≤ 30)
    (main : Nat) (rank : Nat → Nat)
    (hrank : ∀ i j, Edge items i j → rank j < rank i) :
    ∀ fuel start,
      (Finset.filter (fun x => rank x < rank start)
        (Finset.range items.length)).card < fuel →
      Relation.ReflTransGen (Edge items) start main → start ≠ main →
      ∃ prev, chainFindPrev items main start fuel = some prev
        ∧ Edge items prev main := by
  have hL30 : items.length ≤ 2 ^ 30 := by
    rw [inv.length_eq]
    exact Nat.pow_le_pow_right (by omega) h30
  intro fuel
  induction fuel with
  | zero =>
    intro start hcard _ _
    omega
  | succ fuel ih =>
    intro start hcard hreach hne
    rcases hreach.cases_head with hEq | ⟨y, hxy, hyreach⟩
    · exact absurd hEq hne
    obtain ⟨it, hit, hnz, hsum, hlt⟩ := hxy
    have hca : checkedAddSigned start it.link = some y := by
      unfold checkedAddSigned
      rw [if_pos (by constructor <;> omega)]
      congr 1
      omega
    have hstep : chainFindPrev items main start (fuel + 1)
        = if y = main then some start
          else chainFindPrev items main y fuel := by
      rw [chainFindPrev, hit]
      dsimp only
      rw [if_neg hnz, hca]
    by_cases hym : y = main
    · refine ⟨start, ?_, it, hit, hnz, ?_, ?_⟩
      · rw [hstep, if_pos hym]
      · rw [← hym]
        exact hsum
      · rw [← hym]
        exact hlt
    · have hEdge : Edge items start y := ⟨it, hit, hnz, hsum, hlt⟩
      have hylt : rank y < rank start := hrank start y hEdge
      have hsub : Finset.filter (fun x => rank x < rank y)
            (Finset.range items.length)
          ⊂ Finset.filter (fun x => rank x < rank start)
            (Finset.range items.length) := by
        constructor
        · intro x hx
          simp only [Finset.mem_filter, Finset.mem_range] at *
          exact ⟨hx.1, lt_trans hx.2 hylt⟩
        · intro hcontra
          have hy : y ∈ Finset.filter (fun x => rank x < rank start)
              (Finset.range items.length) := by
            simp only [Finset.mem_filter, Finset.mem_range]
            exact ⟨hlt, hylt⟩
          have := hcontra hy
          simp only [Finset.mem_filter, Finset.mem_range] at this
          omega
      have hcard' := Finset.card_lt_card hsub
      obtain ⟨prev, hwalk, hE⟩ := ih y (by omega) hyreach hym
      refine ⟨prev, ?_, hE⟩
      rw [hstep, if_neg hym]
      exact hwalk

/-- Case "incumbent is a squatter" of `insert_item` preserves the layout
invariant: the squatter moves to the free cell, its chain predecessor's
link is retargeted there, and the new item takes the main cell with link
`0`. -/
theorem inv_insert_squatter {l : Nat} (h30 : l ≤ 30)
    {items : List (Option (AssocItem V))} {lastFree : Nat}
    (inv : TableInv l items lastFree) (item : InsertItem V)
    {inc : AssocItem V} {free prev : Nat} {prevIt : AssocItem V}
    (hinc : items.getD (item.position l) none = some inc)
    (hother : cellPM l (item.position l) inc ≠ item.position l)
    (hfree : findFreeIndex items lastFree = some free)
    (hprevIt : items.getD prev none = some prevIt)
    (hprevEdge : Edge items prev (item.position l)) :
    TableInv l
      (((items.set (item.position l) (some (item.intoItem 0))).set free
          (some (inc.relocate (item.position l) free))).set prev
        (some (prevIt.relocateLink (item.position l) free)))
      free := by
  obtain ⟨hfreelt, hfreelf, hfreeEmpty, hfreeScan⟩ :=
    findFreeIndex_spec items lastFree free hfree
  set main := item.position l with hmainDef
  have hmainlt : main < items.length := by
    rw [inv.length_eq]
    exact insertPosition_lt item l h30
  have hmf : main ≠ free := by
    intro hEq
    rw [hEq, hfreeEmpty] at hinc
    cases hinc
  have hpf : prev ≠ free := by
    intro hEq
    rw [hEq, hfreeEmpty] at hprevIt
    cases hprevIt
  have hprevlink : prevIt.link ≠ 0 ∧ (prev : Int) + prevIt.link = main
      ∧ main < items.length := by
    obtain ⟨it0, hit0, hnz0, hsum0, hlt0⟩ := hprevEdge
    rw [hprevIt] at hit0
    cases hit0
    exact ⟨hnz0, hsum0, hlt0⟩
  have hpm : prev ≠ main := by
    intro hEq
    have := hprevlink.2.1
    rw [hEq] at this
    exact hprevlink.1 (by omega)
  have hL30 : items.length ≤ 2 ^ 30 := by
    rw [inv.length_eq]
    exact Nat.pow_le_pow_right (by omega) h30
  have hprevlt : prev < items.length := getD_some_lt_length hprevIt (by simp)
  -- the squatter is live: a dead incumbent's putative main is its own cell
  obtain ⟨other, hincMP⟩ : ∃ o, inc.mainPosition l = some o := by
    match hincEq : inc with
    | .dead lk => exact absurd rfl hother
    | .live k v lk => exact ⟨k.position l, rfl⟩
  have hotherPM : ∀ i, cellPM l i inc = other := by
    intro i
    unfold cellPM
    rw [hincMP]
    rfl
  have hotherNe : other ≠ main := by
    intro hEq
    exact hother (by rw [hotherPM, hEq])
  set newIt := item.intoItem 0 with hnewIt
  set inc' := inc.relocate main free with hinc'
  set prev' := prevIt.relocateLink main free with hprev'
  set items2 := ((items.set main (some newIt)).set free (some inc')).set
    prev (some prev') with hitems2
  have hlen2 : items2.length = items.length := by simp [hitems2]
  have hget2 : ∀ i, items2.getD i none
      = if i = prev then some prev'
        else if i = free then some inc'
          else if i = main then some newIt else items.getD i none := by
    intro i
    by_cases hip : i = prev
    · rw [if_pos hip, hip, hitems2,
        getD_set_self (by simpa using getD_some_lt_length hprevIt (by simp))]
    · rw [if_neg hip, hitems2, getD_set_ne hip]
      by_cases hif : i = free
      · rw [if_pos hif, hif, getD_set_self (by simpa using hfreelt)]
      · rw [if_neg hif, getD_set_ne hif]
        by_cases him : i = main
        · rw [if_pos him, him, getD_set_self hmainlt]
        · rw [if_neg him, getD_set_ne him]
  have hocc2 : ∀ j, items.getD j none ≠ none → items2.getD j none ≠ none := by
    intro j hj
    rw [hget2]
    by_cases h1 : j = prev
    · rw [if_pos h1]
      intro hc
      cases hc
    · rw [if_neg h1]
      by_cases h2 : j = free
      · rw [if_pos h2]
        intro hc
        cases hc
      · rw [if_neg h2]
        by_cases h3 : j = main
        · rw [if_pos h3]
          intro hc
          cases hc
        · rwa [if_neg h3]
  have hnewlink : newIt.link = 0 := link_intoItem item 0
  have hprevlink' : prev'.link = (free : Int) - (prev : Int) := by
    rw [hprev', link_relocateLink, if_neg hprevlink.1]
    have h1 := hprevlink.2.1
    have : prevIt.link + (free : Int) - main = (free : Int) - prev := by omega
    rw [this]
    apply wrap32_eq_self <;> omega
  have hprevlink'_nz : prev'.link ≠ 0 := by
    rw [hprevlink']
    intro hc
    exact hpf (by omega)
  have hinclink : inc.link ≠ 0 →
      inc'.link = inc.link + (main : Int) - (free : Int)
        ∧ 0 ≤ (main : Int) + inc.link
        ∧ (main : Int) + inc.link < (items.length : Int) := by
    intro hnz
    obtain ⟨hb1, hb2⟩ := inv.links_in_bounds main inc hinc hnz
    refine ⟨?_, hb1, hb2⟩
    rw [hinc', link_relocate, if_neg hnz]
    apply wrap32_eq_self <;> omega
  -- no cell has the contested main position as its putative main position
  have hnopm : ∀ i it, items.getD i none = some it → cellPM l i it ≠ main := by
    intro i it hit hEq
    obtain ⟨rt, hrt, hrtpm⟩ := inv.root_ok i it hit
    rw [hEq] at hrt hrtpm
    rw [hinc] at hrt
    cases hrt
    rw [hotherPM] at hrtpm
    exact hotherNe hrtpm
  have hedge2 : ∀ i j, Edge items2 i j ↔
      (i = free ∧ Edge items main j) ∨ (i = prev ∧ j = free)
        ∨ (i ≠ main ∧ i ≠ free ∧ i ≠ prev ∧ Edge items i j) := by
    intro i j
    constructor
    · rintro ⟨it, hit, hnz, hsum, hlt⟩
      rw [hlen2] at hlt
      rw [hget2] at hit
      by_cases hip : i = prev
      · rw [if_pos hip] at hit
        cases hit
        refine .inr (.inl ⟨hip, ?_⟩)
        rw [hprevlink', hip] at hsum
        omega
      · rw [if_neg hip] at hit
        by_cases hif : i = free
        · rw [if_pos hif] at hit
          cases hit
          have hinz : inc.link ≠ 0 := by
            intro hz
            rw [hinc', link_relocate, if_pos hz] at hnz
            exact hnz rfl
          obtain ⟨hrl, hb1, hb2⟩ := hinclink hinz
          refine .inl ⟨hif, inc, hinc, hinz, ?_, hlt⟩
          rw [hrl, hif] at hsum
          omega
        · rw [if_neg hif] at hit
          by_cases him : i = main
          · rw [if_pos him] at hit
            cases hit
            exact absurd hnewlink hnz
          · rw [if_neg him] at hit
            exact .inr (.inr ⟨him, hif, hip, it, hit, hnz, hsum, hlt⟩)
    · rintro (⟨hi, hEdge⟩ | ⟨hi, hj⟩ | ⟨him, hif, hip, hEdge⟩)
      · rw [hi]
        obtain ⟨it0, hit0, hnz0, hsum0, hlt0⟩ := hEdge
        rw [hinc] at hit0
        cases hit0
        obtain ⟨hrl, _, _⟩ := hinclink hnz0
        have hjocc : items.getD j none ≠ none :=
          inv.target_occupied main j ⟨inc, hinc, hnz0, hsum0, hlt0⟩
        have hjf : j ≠ free := by
          intro hEq
          rw [hEq, hfreeEmpty] at hjocc
          exact hjocc rfl
        refine ⟨inc', ?_, ?_, ?_, by rwa [hlen2]⟩
        · rw [hget2, if_neg (Ne.symm hpf), if_pos rfl]
        · rw [hrl]
          intro hc
          apply hjf
          omega
        · rw [hrl]
          omega
      · rw [hi, hj]
        refine ⟨prev', ?_, hprevlink'_nz, ?_, by rwa [hlen2]⟩
        · rw [hget2, if_pos rfl]
        · rw [hprevlink']
          omega
      · obtain ⟨it0, hit0, hnz0, hsum0, hlt0⟩ := hEdge
        refine ⟨it0, ?_, hnz0, hsum0, by rwa [hlen2]⟩
        rw [hget2, if_neg hip, if_neg hif, if_neg him]
        exact hit0
  refine ⟨?_, ?_, ?_, ?_, ?_, ?_, ?_, ?_, ?_⟩
  · rw [hlen2, inv.length_eq]
  · rw [hlen2]
    omega
  · intro i h1 h2
    rw [hlen2] at h2
    by_cases hif : i = free
    · rw [hget2, if_neg (by rw [hif]; exact Ne.symm hpf), if_pos hif]
      intro hc
      cases hc
    · apply hocc2
      by_cases hlf : i < lastFree
      · exact hfreeScan i (by omega) hlf
      · exact inv.free_above i (by omega) h2
  · intro i it hit hnz
    rw [hget2] at hit
    rw [hlen2]
    by_cases hip : i = prev
    · rw [if_pos hip] at hit
      cases hit
      rw [hprevlink', hip]
      constructor <;> omega
    · rw [if_neg hip] at hit
      by_cases hif : i = free
      · rw [if_pos hif] at hit
        cases hit
        have hinz : inc.link ≠ 0 := by
          intro hz
          rw [hinc', link_relocate, if_pos hz] at hnz
          exact hnz rfl
        obtain ⟨hrl, hb1, hb2⟩ := hinclink hinz
        rw [hrl, hif]
        constructor <;> omega
      · rw [if_neg hif] at hit
        by_cases him : i = main
        · rw [if_pos him] at hit
          cases hit
          exact absurd hnewlink hnz
        · rw [if_neg him] at hit
          exact inv.links_in_bounds i it hit hnz
  · intro i j hEdge
    rcases (hedge2 i j).mp hEdge with ⟨hi, hE⟩ | ⟨hi, hj⟩ | ⟨_, _, _, hE⟩
    · exact hocc2 j (inv.target_occupied main j hE)
    · rw [hj, hget2, if_neg (Ne.symm hpf), if_pos rfl]
      intro hc
      cases hc
    · exact hocc2 j (inv.target_occupied i j hE)
  · intro i i' j h1 h2
    rcases (hedge2 i j).mp h1 with ⟨hi, hE⟩ | ⟨hi, hj⟩ | ⟨him, hif, hip, hE⟩ <;>
      rcases (hedge2 i' j).mp h2 with
        ⟨hi', hE'⟩ | ⟨hi', hj'⟩ | ⟨him', hif', hip', hE'⟩
    · rw [hi, hi']
    · exfalso
      rw [hj'] at hE
      exact inv.target_occupied main free hE hfreeEmpty
    · exfalso
      have := inv.indeg_unique main i' j hE hE'
      exact him' this.symm
    · exfalso
      rw [hj] at hE'
      exact inv.target_occupied main free hE' hfreeEmpty
    · rw [hi, hi']
    · exfalso
      rw [hj] at hE'
      exact inv.target_occupied i' free hE' hfreeEmpty
    · exfalso
      have := inv.indeg_unique main i j hE' hE
      exact him this.symm
    · exfalso
      rw [hj'] at hE
      exact inv.target_occupied i free hE hfreeEmpty
    · exact inv.indeg_unique i i' j hE hE'
  · obtain ⟨rank, hrank⟩ := inv.acyclic
    refine ⟨fun x => if x = free then rank main else rank x, ?_⟩
    intro i j hEdge
    dsimp only
    rcases (hedge2 i j).mp hEdge with ⟨hi, hE⟩ | ⟨hi, hj⟩ | ⟨him, hif, hip, hE⟩
    · have hjm : j ≠ main := by
        obtain ⟨it0, hit0, hnz0, hsum0, _⟩ := hE
        rw [hinc] at hit0
        cases hit0
        intro hEq
        rw [hEq] at hsum0
        exact hnz0 (by omega)
      have hjf : j ≠ free := by
        intro hEq
        rw [hEq] at hE
        exact inv.target_occupied main free hE hfreeEmpty
      rw [hi, if_pos rfl, if_neg hjf]
      exact hrank main j hE
    · rw [hi, hj, if_neg hpf, if_pos rfl]
      exact hrank prev main hprevEdge
    · have hjf : j ≠ free := by
        intro hEq
        rw [hEq] at hE
        exact inv.target_occupied i free hE hfreeEmpty
      rw [if_neg hif, if_neg hjf]
      exact hrank i j hE
  · intro i it hit
    rw [hget2] at hit
    by_cases hip : i = prev
    · rw [if_pos hip] at hit
      cases hit
      rw [hip]
      have hpmPrev : cellPM l prev prev' = cellPM l prev prevIt := by
        rw [hprev', cellPM_relocateLink]
      obtain ⟨rt, hrt, hrtpm⟩ := inv.root_ok prev prevIt hprevIt
      have hpmm : cellPM l prev prevIt ≠ main := hnopm prev prevIt hprevIt
      have hpmf : cellPM l prev prevIt ≠ free := by
        intro hEq
        rw [hEq, hfreeEmpty] at hrt
        cases hrt
      by_cases hpmp : cellPM l prev prevIt = prev
      · refine ⟨prev', ?_, ?_⟩
        · rw [hpmPrev, hpmp, hget2, if_pos rfl]
        · rw [hpmPrev, hpmp, hpmPrev]
          exact hpmp
      · have hrtne : cellPM l prev prevIt ≠ prev := hpmp
        refine ⟨rt, ?_, ?_⟩
        · rw [hpmPrev, hget2, if_neg hrtne, if_neg hpmf, if_neg hpmm]
          exact hrt
        · rw [hpmPrev]
          exact hrtpm
    · rw [if_neg hip] at hit
      by_cases hif : i = free
      · rw [if_pos hif] at hit
        cases hit
        rw [hif]
        have hpmInc : cellPM l free inc' = other := by
          rw [hinc', cellPM_relocate, hotherPM]
        obtain ⟨rt, hrt, hrtpm⟩ := inv.root_ok main inc hinc
        rw [hotherPM] at hrt hrtpm
        have hof : other ≠ free := by
          intro hEq
          rw [hEq, hfreeEmpty] at hrt
          cases hrt
        by_cases hop : other = prev
        · rw [hop] at hrt
          rw [hprevIt] at hrt
          cases hrt
          refine ⟨prev', ?_, ?_⟩
          · rw [hpmInc, hop, hget2, if_pos rfl]
          · rw [hpmInc, hop, hprev', cellPM_relocateLink, ← hop]
            exact hrtpm
        · refine ⟨rt, ?_, ?_⟩
          · rw [hpmInc, hget2, if_neg hop, if_neg hof, if_neg hotherNe]
            exact hrt
          · rw [hpmInc]
            exact hrtpm
      · rw [if_neg hif] at hit
        by_cases him : i = main
        · rw [if_pos him] at hit
          cases hit
          rw [him]
          refine ⟨newIt, ?_, ?_⟩
          · rw [cellPM_intoItem_self, hget2, if_neg hpm.symm, if_neg hmf,
              if_pos rfl]
          · rw [cellPM_intoItem_self, cellPM_intoItem_self]
        · rw [if_neg him] at hit
          obtain ⟨rt, hrt, hrtpm⟩ := inv.root_ok i it hit
          have hpmm : cellPM l i it ≠ main := hnopm i it hit
          have hpmf : cellPM l i it ≠ free := by
            intro hEq
            rw [hEq, hfreeEmpty] at hrt
            cases hrt
          by_cases hpmp : cellPM l i it = prev
          · rw [hpmp] at hrt
            rw [hprevIt] at hrt
            cases hrt
            refine ⟨prev', ?_, ?_⟩
            · rw [hpmp, hget2, if_pos rfl]
            · rw [hpmp, hprev', cellPM_relocateLink, ← hpmp]
              exact hrtpm
          · refine ⟨rt, ?_, hrtpm⟩
            rw [hget2, if_neg hpmp, if_neg hpmf, if_neg hpmm]
            exact hrt
  · have htrans : ∀ a b, Relation.ReflTransGen (Edge items) a b →
        a ≠ main →
        Relation.ReflTransGen (Edge items2) a
          (if b = main then free else b) := by
      intro a b hab ham
      induction hab with
      | refl =>
        rw [if_neg ham]
      | tail hxy hedge ih =>
        rename_i y z
        by_cases hym : y = main
        · have hE2 : Edge items2 free z := (hedge2 free z).mpr
            (.inl ⟨rfl, by rwa [hym] at hedge⟩)
          have hzm : z ≠ main := by
            obtain ⟨it0, hit0, hnz0, hsum0, _⟩ := hedge
            intro hEq
            rw [hEq, hym] at hsum0
            exact hnz0 (by omega)
          rw [if_neg hzm]
          rw [if_pos hym] at ih
          exact ih.tail hE2
        · rw [if_neg hym] at ih
          by_cases hyp : y = prev
          · have hzm : z = main := by
              rw [hyp] at hedge
              exact hedge.functional hprevEdge
            rw [hzm, if_pos rfl]
            have hE2 : Edge items2 prev free :=
              (hedge2 prev free).mpr (.inr (.inl ⟨rfl, rfl⟩))
            rw [hyp] at ih
            exact ih.tail hE2
          · have hyf : y ≠ free := by
              intro hEq
              rw [hEq] at hedge
              exact hedge.src_occupied hfreeEmpty
            have hzm : z ≠ main := by
              intro hEq
              rw [hEq] at hedge
              exact hyp (inv.indeg_unique y prev main hedge hprevEdge)
            rw [if_neg hzm]
            exact ih.tail ((hedge2 y z).mpr (.inr (.inr ⟨hym, hyf, hyp, hedge⟩)))
    intro i it hit
    rw [hget2] at hit
    by_cases hip : i = prev
    · rw [if_pos hip] at hit
      cases hit
      rw [hip]
      have hpmPrev : cellPM l prev prev' = cellPM l prev prevIt := by
        rw [hprev', cellPM_relocateLink]
      rw [hpmPrev]
      have hpmm : cellPM l prev prevIt ≠ main := hnopm prev prevIt hprevIt
      have := htrans (cellPM l prev prevIt) prev
        (inv.reach_pm prev prevIt hprevIt) hpmm
      rwa [if_neg hpm] at this
    · rw [if_neg hip] at hit
      by_cases hif : i = free
      · rw [if_pos hif] at hit
        cases hit
        rw [hif]
        have hpmInc : cellPM l free inc' = other := by
          rw [hinc', cellPM_relocate, hotherPM]
        rw [hpmInc]
        have hreach := inv.reach_pm main inc hinc
        rw [hotherPM] at hreach
        have := htrans other main hreach hotherNe
        rwa [if_pos rfl] at this
      · rw [if_neg hif] at hit
        by_cases him : i = main
        · rw [if_pos him] at hit
          cases hit
          rw [him, cellPM_intoItem_self]
        · rw [if_neg him] at hit
          have hpmm : cellPM l i it ≠ main := hnopm i it hit
          have := htrans (cellPM l i it) i (inv.reach_pm i it hit) hpmm
          rwa [if_neg him] at this

/-- `find_free_index` succeeds whenever an empty cell lies below the
cursor. -/
theorem findFreeIndex_some (items : List (Option (AssocItem V))) :
    ∀ lf, lf ≤ items.length →
      (∃ e, e < lf ∧ items.getD e none = none) →
      ∃ f, findFreeIndex items lf = some f := by
  intro lf
  induction lf with
  | zero =>
    rintro _ ⟨e, he, _⟩
    omega
  | succ lf ih =>
    rintro hle ⟨e, helf, hemp⟩
    rw [findFreeIndex, if_pos (by omega : lf < items.length)]
    by_cases hcell : (items.getD lf none).isNone
    · rw [if_pos hcell]
      exact ⟨lf, rfl⟩
    · rw [if_neg hcell]
      apply ih (by omega)
      refine ⟨e, ?_, hemp⟩
      rcases Nat.lt_succ_iff_lt_or_eq.mp helf with h | h
      · exact h
      · exfalso
        rw [h] at hemp
        rw [hemp] at hcell
        exact hcell rfl

/-- A non-full table satisfying the invariant accepts any `insert_item`
(all unwraps, the free-cell search and the chain walk succeed), and the
result satisfies the invariant again. -/
theorem insertItem_preserves_inv {l : Nat} (h30 : l ≤ 30)
    {items : List (Option (AssocItem V))} {lastFree : Nat}
    (inv : TableInv l items lastFree) (item : InsertItem V)
    (hnonfull : ∃ e, e < items.length ∧ items.getD e none = none) :
    ∃ items' lastFree',
      insertItem ⟨some items, lastFree⟩ item = some ⟨some items', lastFree'⟩
        ∧ TableInv l items' lastFree' := by
  have hloglen : Table.loglen (⟨some items, lastFree⟩ : Table V) = some l := by
    show ilog2Exact items.length = some l
    rw [inv.length_eq]
    exact ilog2Exact_pow l
  have hmainlt : item.position l < items.length := by
    rw [inv.length_eq]
    exact insertPosition_lt item l h30
  unfold insertItem
  rw [hloglen]
  dsimp only
  rw [if_pos hmainlt]
  rcases hcell : items.getD (item.position l) none with _ | inc
  · exact ⟨_, _, rfl, inv_insert_empty h30 inv item hcell⟩
  · obtain ⟨e, helt, hemp⟩ := hnonfull
    have helf : e < lastFree := by
      by_contra hge
      exact inv.free_above e (by omega) helt hemp
    obtain ⟨free, hfree⟩ :=
      findFreeIndex_some items lastFree inv.lastFree_le ⟨e, helf, hemp⟩
    rw [hfree]
    dsimp only
    by_cases hother :
        (inc.mainPosition l).getD (item.position l) = item.position l
    · rw [if_pos hother]
      exact ⟨_, _, rfl, inv_insert_displace_root h30 inv item hcell hother
        hfree⟩
    · rw [if_neg hother]
      obtain ⟨rank, hrank⟩ := inv.acyclic
      have hotherlt : (inc.mainPosition l).getD (item.position l)
          < items.length := cellPM_lt h30 inv.length_eq hcell
      have hcard : (Finset.filter
            (fun x => rank x
              < rank ((inc.mainPosition l).getD (item.position l)))
            (Finset.range items.length)).card < items.length := by
        have hsub : Finset.filter
              (fun x => rank x
                < rank ((inc.mainPosition l).getD (item.position l)))
              (Finset.range items.length)
            ⊂ Finset.range items.length := by
          constructor
          · exact Finset.filter_subset _ _
          · intro hcontra
            have hmem : (inc.mainPosition l).getD (item.position l)
                ∈ Finset.range items.length := by
              simpa using hotherlt
            have := hcontra hmem
            simp only [Finset.mem_filter] at this
            omega
        have := Finset.card_lt_card hsub
        simpa using this
      obtain ⟨prev, hwalk, hprevEdge⟩ := chainFindPrev_finds inv h30
        (item.position l) rank hrank items.length
        ((inc.mainPosition l).getD (item.position l)) hcard
        (inv.reach_pm (item.position l) inc hcell) hother
      rw [hwalk]
      dsimp only
      obtain ⟨hfreelt, hfreelf, hfreeEmpty, _⟩ :=
        findFreeIndex_spec items lastFree free hfree
      obtain ⟨prevIt, hprevIt, hplnz, hplsum, hpllt⟩ := hprevEdge
      have hpm : prev ≠ item.position l := by
        intro hEq
        rw [hEq] at hplsum
        exact hplnz (by omega)
      have hpf : prev ≠ free := by
        intro hEq
        rw [hEq, hfreeEmpty] at hprevIt
        cases hprevIt
      rw [getD_set_ne hpf, getD_set_ne hpm, hprevIt]
      dsimp only
      exact ⟨_, _, rfl, inv_insert_squatter h30 inv item hcell hother hfree
        hprevIt ⟨prevIt, hprevIt, hplnz, hplsum, hpllt⟩⟩

/-- Empty cells plus occupied cells account for the whole table. -/
theorem countNone_add_occupied (items : List (Option (AssocItem V))) :
    items.countP (fun c => c.isNone)
      + (items.filterMap (Option.map AssocItem.content)).length
      = items.length := by
  induction items with
  | nil => rfl
  | cons c rest ih =>
    cases c <;> simp [List.countP_cons, List.filterMap_cons] <;> omega

/-- A successful insert consumes exactly one empty cell. -/
theorem insertItem_count {t t' : Table V} {item : InsertItem V}
    (h : insertItem t item = some t')
    {items items' : List (Option (AssocItem V))}
    (ht : t.items = some items) (ht' : t'.items = some items')
    (hlen : items'.length = items.length) :
    items'.countP (fun c => c.isNone) + 1
      = items.countP (fun c => c.isNone) := by
  have hc := insertItem_contents t item t' h
  have htc : tableContents t
      = ↑(items.filterMap (Option.map AssocItem.content)) := by
    unfold tableContents
    rw [ht]
  have htc' : tableContents t'
      = ↑(items'.filterMap (Option.map AssocItem.content)) := by
    unfold tableContents
    rw [ht']
  have hcard := congrArg Multiset.card hc
  rw [htc, htc', Multiset.card_cons, Multiset.coe_card, Multiset.coe_card]
    at hcard
  have h1 := countNone_add_occupied items
  have h2 := countNone_add_occupied items'
  omega

/-- Folding `insert_item` over any insert list from an invariant-satisfying
table with enough empty cells succeeds and preserves the invariant. -/
theorem foldl_insertItem_inv {l : Nat} (h30 : l ≤ 30) :
    ∀ (inserts : List (InsertItem V)) (items : List (Option (AssocItem V)))
      (lastFree : Nat),
      TableInv l items lastFree →
      inserts.length ≤ items.countP (fun c => c.isNone) →
      ∃ items' lastFree',
        List.foldlM insertItem (⟨some items, lastFree⟩ : Table V) inserts
          = some ⟨some items', lastFree'⟩
        ∧ TableInv l items' lastFree' := by
  intro inserts
  induction inserts with
  | nil =>
    intro items lastFree inv _
    exact ⟨items, lastFree, rfl, inv⟩
  | cons item rest ih =>
    intro items lastFree inv hcount
    rw [List.length_cons] at hcount
    have hpos : 0 < items.countP (fun c => c.isNone) := by omega
    obtain ⟨c, hcmem, hcP⟩ := List.countP_pos_iff.mp hpos
    obtain ⟨e, helt, hegt⟩ := List.mem_iff_getElem.mp hcmem
    have hcnone : c = none := by
      cases c
      · rfl
      · cases hcP
    have hemp : items.getD e none = none := by
      rw [List.getD_eq_getElem _ _ helt, hegt, hcnone]
    obtain ⟨items1, lf1, hstep, inv1⟩ :=
      insertItem_preserves_inv h30 inv item ⟨e, helt, hemp⟩
    have hlen1 : items1.length = items.length := by
      rw [inv1.length_eq, inv.length_eq]
    have hcount1 := insertItem_count hstep rfl rfl hlen1
    obtain ⟨items', lf', hrest, inv'⟩ := ih items1 lf1 inv1 (by omega)
    refine ⟨items', lf', ?_, inv'⟩
    rw [List.foldlM_cons, hstep]
    exact hrest

/-! ## The invariant satisfies `validate_positions` -/

/-- The initial `unvalidated` entry of a cell. -/
theorem initUnvalidated_getD (items : List (Option (AssocItem V))) (l z : Nat) :
    (initUnvalidated items l).getD z none
      = match items.getD z none with
        | none => none
        | some it => some (cellPM l z it) := by
  by_cases hz : z < items.length
  · rw [List.getD_eq_getElem _ _ (by simpa [initUnvalidated] using hz),
      List.getD_eq_getElem _ _ hz]
    unfold initUnvalidated
    rw [List.getElem_mapIdx]
    cases items[z] <;> rfl
  · rw [List.getD_eq_default _ _ (by simpa [initUnvalidated] using (by omega : items.length ≤ z)),
      List.getD_eq_default _ _ (by omega)]

/-- One chain walk of the validator, run from an occupied cell under the
invariant, cannot fail, only clears entries, clears exactly the reachable
cells whose surviving entry is the walk's root, and clears nothing that
was not `some main` before. -/
theorem chainWalk_ok {l : Nat} {items : List (Option (AssocItem V))}
    {lastFree : Nat} (inv : TableInv l items lastFree) (h30 : l ≤ 30)
    (main : Nat) (rank : Nat → Nat)
    (hrank : ∀ i j, Edge items i j → rank j < rank i) :
    ∀ fuel x u, items.getD x none ≠ none →
      (Finset.filter (fun z => rank z < rank x)
        (Finset.range items.length)).card ≤ fuel →
      ∃ u', chainWalk items items.length main fuel x u = .ok u'
        ∧ u'.length = u.length
        ∧ (∀ z, u.getD z none = none → u'.getD z none = none)
        ∧ (∀ z v, u'.getD z none = some v → u.getD z none = some v)
        ∧ (∀ z, Relation.ReflTransGen (Edge items) x z →
            (u.getD z none = none ∨ u.getD z none = some main) →
            u'.getD z none = none)
        ∧ (∀ z, u'.getD z none = none →
            u.getD z none = none ∨ u.getD z none = some main) := by
  intro fuel
  induction fuel with
  | zero =>
    intro x u hx hcard
    rcases hcell : items.getD x none with _ | it
    · exact absurd hcell hx
    set u1 := if u.getD x none = some main then u.set x none else u with hu1
    have hu1len : u1.length = u.length := by
      rw [hu1]
      split <;> simp
    have hu1ne : ∀ z, z ≠ x → u1.getD z none = u.getD z none := by
      intro z hzx
      rw [hu1]
      split
      · exact getD_set_ne hzx _ _
      · rfl
    have hu1mono : ∀ z, u.getD z none = none → u1.getD z none = none := by
      intro z hz
      by_cases hzx : z = x
      · subst hzx
        rw [hu1]
        split
        · rename_i hc
          rw [getD_set_self (getD_some_lt_length hc (by simp))]
        · exact hz
      · rw [hu1ne z hzx]
        exact hz
    have hu1sub : ∀ z v, u1.getD z none = some v → u.getD z none = some v := by
      intro z v hz
      by_cases hzx : z = x
      · subst hzx
        rw [hu1] at hz
        revert hz
        split
        · rename_i hc
          rw [getD_set_self (getD_some_lt_length hc (by simp))]
          intro hz
          cases hz
        · exact id
      · rwa [hu1ne z hzx] at hz
    have hu1x : (u.getD x none = none ∨ u.getD x none = some main) →
        u1.getD x none = none := by
      intro hu
      rcases hu with hu | hu
      · exact hu1mono x hu
      · rw [hu1, if_pos hu, getD_set_self (getD_some_lt_length hu (by simp))]
    have hu1w4 : ∀ z, u1.getD z none = none →
        u.getD z none = none ∨ u.getD z none = some main := by
      intro z hz
      by_cases hzx : z = x
      · subst hzx
        rw [hu1] at hz
        revert hz
        split
        · rename_i hc
          intro _
          exact .inr hc
        · exact fun h => .inl h
      · rw [hu1ne z hzx] at hz
        exact .inl hz
    by_cases hnz : it.link = 0
    · refine ⟨u1, ?_, hu1len, hu1mono, hu1sub, ?_, hu1w4⟩
      · rw [chainWalk, hcell]
        dsimp only
        rw [if_pos hnz]
      · intro z hreach hu
        have hzx : z = x := by
          rcases hreach.cases_head with h | ⟨w, hxw, _⟩
          · exact h.symm
          · exfalso
            obtain ⟨it0, hit0, hnz0, _, _⟩ := hxw
            rw [hcell] at hit0
            cases hit0
            exact hnz0 hnz
        subst hzx
        exact hu1x hu
    · -- a link exists: impossible with zero fuel budget
      exfalso
      have hEdge := edge_of_link inv hcell hnz
      have hmem : ((x : Int) + it.link).toNat
          ∈ Finset.filter (fun z => rank z < rank x)
            (Finset.range items.length) := by
        simp only [Finset.mem_filter, Finset.mem_range]
        exact ⟨hEdge.tgt_lt, hrank _ _ hEdge⟩
      have : 0 < (Finset.filter (fun z => rank z < rank x)
          (Finset.range items.length)).card :=
        Finset.card_pos.mpr ⟨_, hmem⟩
      omega
  | succ fuel ih =>
    intro x u hx hcard
    rcases hcell : items.getD x none with _ | it
    · exact absurd hcell hx
    set u1 := if u.getD x none = some main then u.set x none else u with hu1
    have hu1len : u1.length = u.length := by
      rw [hu1]
      split <;> simp
    have hu1ne : ∀ z, z ≠ x → u1.getD z none = u.getD z none := by
      intro z hzx
      rw [hu1]
      split
      · exact getD_set_ne hzx _ _
      · rfl
    have hu1mono : ∀ z, u.getD z none = none → u1.getD z none = none := by
      intro z hz
      by_cases hzx : z = x
      · subst hzx
        rw [hu1]
        split
        · rename_i hc
          rw [getD_set_self (getD_some_lt_length hc (by simp))]
        · exact hz
      · rw [hu1ne z hzx]
        exact hz
    have hu1sub : ∀ z v, u1.getD z none = some v → u.getD z none = some v := by
      intro z v hz
      by_cases hzx : z = x
      · subst hzx
        rw [hu1] at hz
        revert hz
        split
        · rename_i hc
          rw [getD_set_self (getD_some_lt_length hc (by simp))]
          intro hz
          cases hz
        · exact id
      · rwa [hu1ne z hzx] at hz
    have hu1x : (u.getD x none = none ∨ u.getD x none = some main) →
        u1.getD x none = none := by
      intro hu
      rcases hu with hu | hu
      · exact hu1mono x hu
      · rw [hu1, if_pos hu, getD_set_self (getD_some_lt_length hu (by simp))]
    have hu1w4 : ∀ z, u1.getD z none = none →
        u.getD z none = none ∨ u.getD z none = some main := by
      intro z hz
      by_cases hzx : z = x
      · subst hzx
        rw [hu1] at hz
        revert hz
        split
        · rename_i hc
          intro _
          exact .inr hc
        · exact fun h => .inl h
      · rw [hu1ne z hzx] at hz
        exact .inl hz
    by_cases hnz : it.link = 0
    · refine ⟨u1, ?_, hu1len, hu1mono, hu1sub, ?_, hu1w4⟩
      · rw [chainWalk, hcell]
        dsimp only
        rw [if_pos hnz]
      · intro z hreach hu
        have hzx : z = x := by
          rcases hreach.cases_head with h | ⟨w, hxw, _⟩
          · exact h.symm
          · exfalso
            obtain ⟨it0, hit0, hnz0, _, _⟩ := hxw
            rw [hcell] at hit0
            cases hit0
            exact hnz0 hnz
        subst hzx
        exact hu1x hu
    · have hEdge := edge_of_link inv hcell hnz
      set y := ((x : Int) + it.link).toNat with hy
      have hylt : y < items.length := hEdge.tgt_lt
      have hyocc : items.getD y none ≠ none :=
        inv.target_occupied x y hEdge
      have hca : checkedAddSigned x it.link = some y := by
        obtain ⟨hb1, hb2⟩ := inv.links_in_bounds x it hcell hnz
        have hL30 : items.length ≤ 2 ^ 30 := by
          rw [inv.length_eq]
          exact Nat.pow_le_pow_right (by omega) h30
        unfold checkedAddSigned
        rw [if_pos (by constructor <;> omega)]
      have hcard' : (Finset.filter (fun z => rank z < rank y)
          (Finset.range items.length)).card ≤ fuel := by
        have hsub : Finset.filter (fun z => rank z < rank y)
              (Finset.range items.length)
            ⊂ Finset.filter (fun z => rank z < rank x)
              (Finset.range items.length) := by
          constructor
          · intro w hw
            simp only [Finset.mem_filter, Finset.mem_range] at *
            exact ⟨hw.1, lt_trans hw.2 (hrank x y hEdge)⟩
          · intro hcontra
            have hmem : y ∈ Finset.filter (fun z => rank z < rank x)
                (Finset.range items.length) := by
              simp only [Finset.mem_filter, Finset.mem_range]
              exact ⟨hylt, hrank x y hEdge⟩
            have := hcontra hmem
            simp only [Finset.mem_filter, Finset.mem_range] at this
            omega
        have := Finset.card_lt_card hsub
        omega
      obtain ⟨u', hwalk, hlen', hmono', hsub', hclear', hw4'⟩ :=
        ih y u1 hyocc hcard'
      refine ⟨u', ?_, by rw [hlen', hu1len], ?_, ?_, ?_, ?_⟩
      · rw [chainWalk, hcell]
        dsimp only
        rw [if_neg hnz, hca]
        dsimp only
        rw [if_pos hylt]
        exact hwalk
      · intro z hz
        exact hmono' z (hu1mono z hz)
      · intro z v hz
        exact hu1sub z v (hsub' z v hz)
      · intro z hreach hu
        by_cases hzx : z = x
        · subst hzx
          exact hmono' z (hu1x hu)
        · have hreachy : Relation.ReflTransGen (Edge items) y z := by
            rcases hreach.cases_head with h | ⟨w, hxw, hwz⟩
            · exact absurd h.symm hzx
            · have : w = y := by
                obtain ⟨it0, hit0, hnz0, hsum0, hlt0⟩ := hxw
                rw [hcell] at hit0
                cases hit0
                omega
              rwa [this] at hwz
          apply hclear' z hreachy
          rw [hu1ne z hzx]
          exact hu
      · intro z hz
        rcases hw4' z hz with h1 | h1
        · exact hu1w4 z h1
        · exact .inr (hu1sub z main h1)

/-- The facts the outer validation loop maintains about the `unvalidated`
vector `u`, with `ps` the positions still to process: entries only ever get
cleared, occupied cells whose putative main position was already processed
are cleared, and cleared entries were either empty cells or cells whose
putative main position was already processed. -/
structure UnvalInv (l : Nat) (items : List (Option (AssocItem V)))
    (ps : List Nat) (u : List (Option Nat)) : Prop where
  length_eq : u.length = items.length
  sub : ∀ z v, u.getD z none = some v →
      (initUnvalidated items l).getD z none = some v
  cleared : ∀ z it, items.getD z none = some it → cellPM l z it ∉ ps →
      u.getD z none = none
  none_src : ∀ z, u.getD z none = none →
      (initUnvalidated items l).getD z none = none
        ∨ ∃ it, items.getD z none = some it ∧ cellPM l z it ∉ ps

/-- The outer loop of the validator succeeds under the invariant and clears
every occupied cell. -/
theorem validateOuter_ok {l : Nat} {items : List (Option (AssocItem V))}
    {lastFree : Nat} (inv : TableInv l items lastFree) (h30 : l ≤ 30)
    (rank : Nat → Nat) (hrank : ∀ i j, Edge items i j → rank j < rank i) :
    ∀ ps u, ps.Nodup → UnvalInv l items ps u →
      ∃ u', validateOuter items items.length ps u = .ok u'
        ∧ UnvalInv l items [] u' := by
  intro ps
  induction ps with
  | nil =>
    intro u _ hui
    exact ⟨u, rfl, hui⟩
  | cons p ps ih =>
    intro u hnd hui
    obtain ⟨hp, hnd'⟩ := List.nodup_cons.mp hnd
    rw [validateOuter]
    by_cases hroot : u.getD p none = some p
    · rw [if_pos hroot]
      have hinit := hui.sub p p hroot
      rw [initUnvalidated_getD] at hinit
      rcases hcellp : items.getD p none with _ | rt
      · rw [hcellp] at hinit
        cases hinit
      rw [hcellp] at hinit
      dsimp only at hinit
      injection hinit with hpmrt
      have hplt : p < items.length := getD_some_lt_length hcellp (by simp)
      have hpocc : items.getD p none ≠ none := by
        rw [hcellp]
        intro hc
        cases hc
      have hcard : (Finset.filter (fun z => rank z < rank p)
          (Finset.range items.length)).card ≤ items.length - 1 := by
        have hsub : Finset.filter (fun z => rank z < rank p)
              (Finset.range items.length) ⊂ Finset.range items.length := by
          constructor
          · exact Finset.filter_subset _ _
          · intro hcontra
            have hmem : p ∈ Finset.range items.length := by simpa using hplt
            have := hcontra hmem
            simp only [Finset.mem_filter] at this
            omega
        have := Finset.card_lt_card hsub
        simp only [Finset.card_range] at this
        omega
      obtain ⟨u', hwalk, hlen', hmono', hsub', hclear', hw4'⟩ :=
        chainWalk_ok inv h30 p rank hrank (items.length - 1) p u hpocc hcard
      rw [hwalk]
      apply ih u' hnd'
      refine ⟨by rw [hlen', hui.length_eq], ?_, ?_, ?_⟩
      · intro z v hz
        exact hui.sub z v (hsub' z v hz)
      · intro z it hit hnotps
        by_cases hpmz : cellPM l z it = p
        · have hreach : Relation.ReflTransGen (Edge items) p z := by
            have := inv.reach_pm z it hit
            rwa [hpmz] at this
          apply hclear' z hreach
          rcases hu : u.getD z none with _ | v
          · exact .inl rfl
          · refine .inr ?_
            have hsubz := hui.sub z v hu
            rw [initUnvalidated_getD, hit] at hsubz
            dsimp only at hsubz
            injection hsubz with hv
            rw [← hv, hpmz]
        · have : cellPM l z it ∉ p :: ps := by
            intro hmem
            rcases List.mem_cons.mp hmem with h | h
            · exact hpmz h
            · exact hnotps h
          exact hmono' z (hui.cleared z it hit this)
      · intro z hz
        rcases hw4' z hz with h1 | h1
        · rcases hui.none_src z h1 with h2 | ⟨it, hit, hpm⟩
          · exact .inl h2
          · refine .inr ⟨it, hit, ?_⟩
            intro hmem
            exact hpm (List.mem_cons_of_mem p hmem)
        · have hinitz := hui.sub z p h1
          rw [initUnvalidated_getD] at hinitz
          rcases hcellz : items.getD z none with _ | it
          · rw [hcellz] at hinitz
            cases hinitz
          · rw [hcellz] at hinitz
            dsimp only at hinitz
            injection hinitz with hpmq
            exact .inr ⟨it, rfl, by rw [hpmq]; exact hp⟩
    · rw [if_neg hroot]
      apply ih u hnd'
      refine ⟨hui.length_eq, hui.sub, ?_, ?_⟩
      · intro z it hit hnotps
        by_cases hpmz : cellPM l z it = p
        · exfalso
          obtain ⟨rt, hrt, hrtpm⟩ := inv.root_ok z it hit
          rw [hpmz] at hrt hrtpm
          have hinitp : (initUnvalidated items l).getD p none = some p := by
            rw [initUnvalidated_getD, hrt]
            dsimp only
            rw [hrtpm]
          rcases hu : u.getD p none with _ | v
          · rcases hui.none_src p hu with h2 | ⟨it2, hit2, hpm2⟩
            · rw [hinitp] at h2
              cases h2
            · rw [hrt] at hit2
              cases hit2
              rw [hrtpm] at hpm2
              exact hpm2 (List.mem_cons_self p ps)
          · have := hui.sub p v hu
            rw [hinitp] at this
            cases this
            exact hroot hu
        · have : cellPM l z it ∉ p :: ps := by
            intro hmem
            rcases List.mem_cons.mp hmem with h | h
            · exact hpmz h
            · exact hnotps h
          exact hui.cleared z it hit this
      · intro z hz
        rcases hui.none_src z hz with h2 | ⟨it, hit, hpm⟩
        · exact .inl h2
        · refine .inr ⟨it, hit, ?_⟩
          intro hmem
          exact hpm (List.mem_cons_of_mem p hmem)

/-- A table satisfying the layout invariant passes `validate_positions`. -/
theorem validatePositions_of_inv {l : Nat} (h30 : l ≤ 30)
    {items : List (Option (AssocItem V))} {lastFree : Nat}
    (inv : TableInv l items lastFree) :
    validatePositions (⟨some items, lastFree⟩ : Table V) = .ok () := by
  have hilog : ilog2Exact items.length = some l := by
    rw [inv.length_eq]
    exact ilog2Exact_pow l
  have hlen : iexp2 (some l) = items.length := by
    rw [inv.length_eq]
    rfl
  obtain ⟨rank, hrank⟩ := inv.acyclic
  have hinit : UnvalInv l items (List.range items.length)
      (initUnvalidated items l) := by
    refine ⟨by simp [initUnvalidated], fun z v h => h, ?_, fun z hz => .inl hz⟩
    intro z it hit hnp
    exfalso
    apply hnp
    rw [List.mem_range]
    exact cellPM_lt h30 inv.length_eq hit
  obtain ⟨u', houter, hui'⟩ := validateOuter_ok inv h30 rank hrank
    (List.range items.length) (initUnvalidated items l)
    (List.nodup_range _) hinit
  have hall : u'.all Option.isNone = true := by
    rw [List.all_eq_true]
    intro x hx
    obtain ⟨i, hi, hEq⟩ := List.mem_iff_getElem.mp hx
    rw [← hEq]
    have hgetD : u'.getD i none = none := by
      rcases hcell : items.getD i none with _ | it
      · rcases hu : u'.getD i none with _ | v
        · rfl
        · have := hui'.sub i v hu
          rw [initUnvalidated_getD, hcell] at this
          cases this
      · exact hui'.cleared i it hcell (by simp)
    rw [List.getD_eq_getElem _ _ hi] at hgetD
    rw [hgetD]
    rfl
  unfold validatePositions
  dsimp only
  rw [hilog]
  dsimp only
  rw [hlen, houter]
  dsimp only
  rw [if_pos hall]

theorem replicate_getD_none (n i : Nat) :
    (List.replicate n (none : Option (AssocItem V))).getD i none = none := by
  by_cases hi : i < n
  · rw [List.getD_eq_getElem _ _ (by simpa using hi)]
    exact List.getElem_replicate ..
  · rw [List.getD_eq_default _ _ (by simpa using (by omega : n ≤ i))]

/-- The fresh table satisfies the layout invariant. -/
theorem tableInv_new (l : Nat) :
    TableInv l (List.replicate (2 ^ l) (none : Option (AssocItem V)))
      (2 ^ l) := by
  have hnoedge : ∀ i j,
      ¬ Edge (List.replicate (2 ^ l) (none : Option (AssocItem V))) i j := by
    rintro i j ⟨it, hit, _⟩
    rw [replicate_getD_none] at hit
    cases hit
  refine ⟨by simp, by simp, ?_, ?_, ?_, ?_, ⟨fun _ => 0, ?_⟩, ?_, ?_⟩
  · intro i h1 h2
    simp only [List.length_replicate] at h2
    omega
  · intro i it hit
    rw [replicate_getD_none] at hit
    cases hit
  · intro i j hE
    exact absurd hE (hnoedge i j)
  · intro i i' j h1 h2
    exact absurd h1 (hnoedge i j)
  · intro i j hE
    exact absurd hE (hnoedge i j)
  · intro i it hit
    rw [replicate_getD_none] at hit
    cases hit
  · intro i it hit
    rw [replicate_getD_none] at hit
    cases hit

theorem tableNew_eq (l : Nat) :
    Table.new V (some l)
      = ⟨some (List.replicate (2 ^ l) (none : Option (AssocItem V))),
          2 ^ l⟩ := by
  unfold Table.new
  have h1 : iexp2 (some l) = 2 ^ l := rfl
  rw [h1]
  simp only []
  rw [if_pos (by positivity : 0 < 2 ^ l)]

theorem countP_none_replicate (n : Nat) :
    (List.replicate n (none : Option (AssocItem V))).countP
      (fun c => c.isNone) = n := by
  induction n with
  | zero => rfl
  | succ n ih => simp [List.replicate_succ, List.countP_cons, ih]

/-- The result of a whole programmatic build from an in-budget insert list:
it succeeds and satisfies the layout invariant. -/
theorem buildFromList_inv (l : Nat) (h30 : l ≤ 30)
    (inserts : List (InsertItem V)) (hlen : inserts.length ≤ 2 ^ l) :
    ∃ items' lastFree',
      buildFromList V (some l) inserts = some ⟨some items', lastFree'⟩
        ∧ TableInv l items' lastFree' := by
  unfold buildFromList
  rw [tableNew_eq]
  exact foldl_insertItem_inv h30 inserts _ _ (tableInv_new l)
    (by rw [countP_none_replicate]; exact hlen)

/-- C2: every associative table built programmatically by a sequence of
`TableBuilder::insert` calls, with the capacity `2^loglen` large enough for
every insert to find a free cell (`n ≤ 2^loglen` suffices, and the spec's
`loglen ≤ 30` domain), is built successfully and passes
`validate_positions`. -/
theorem builder_validates (l : Nat) (h30 : l ≤ 30)
    (entries : List (Key × Option V)) (hlen : entries.length ≤ 2 ^ l) :
    ∃ t, buildFromList V (some l)
        (entries.map fun e => InsertItem.live e.1 e.2) = some t
      ∧ validatePositions t = .ok () := by
  obtain ⟨items', lastFree', hbuild, inv⟩ :=
    buildFromList_inv l h30 (entries.map fun e => InsertItem.live e.1 e.2)
      (by simpa using hlen)
  exact ⟨_, hbuild, validatePositions_of_inv h30 inv⟩

/-- Witness for `builder_validates`: the keys `"a"`, `"aa"`, `"ab"`, `"ba"`
at `loglen = 2` build successfully and validate. -/
theorem builder_validates_witness :
    ∃ t, buildFromList Unit (some 2)
        ([((Key.name [97] : Key), (none : Option Unit)),
          (.name [97, 97], none), (.name [97, 98], none),
          (.name [98, 97], none)].map
          fun e => InsertItem.live e.1 e.2) = some t
      ∧ validatePositions t = .ok () :=
  builder_validates 2 (by decide)
    [((Key.name [97] : Key), (none : Option Unit)), (.name [97, 97], none),
      (.name [97, 98], none), (.name [98, 97], none)] (by decide)

/-- Witness for `insert_never_discards`: inserting the key `"a"` into a
fresh 2-cell table adds exactly one live item. -/
theorem insert_never_discards_witness :
    tableContents
        { items := some [some (.live (.name [97]) none 0), none]
          lastFree := 2 }
      = ItemContent.live (.name [97]) (none : Option Unit) ::ₘ
          tableContents (Table.new Unit (some 1)) :=
  (insert_never_discards (Table.new Unit (some 1))
      { items := some [some (.live (.name [97]) none 0), none]
        lastFree := 2 }
      (.name [97]) none).1 (by decide)

/-- The occupied cells of an item vector, as `(index, item)` pairs in cell
order: the input the load flow receives when fed the same table. -/
def dumpCells (items : List (Option (AssocItem V))) :
    List (Nat × AssocItem V) :=
  (List.range items.length).filterMap fun i =>
    (items.getD i none).map fun it => (i, it)

/-- The whole load-time flow: a fresh `TableLoadBuilder` of the given
capacity, one `insert(index, item)` call per occupied cell,
`set_last_free`, then `build`. The outer `none` models a panic of one of
the load inserts. -/
def loadFlow (loglen : Option Nat) (cells : List (Nat × AssocItem V))
    (lastFree : Nat) : Option (Except String (Table V)) :=
  (cells.foldlM (fun t p => loadInsert t p.1 p.2)
      (Table.new V loglen)).map
    fun t => loadBuild (setLastFree t lastFree)

theorem getD_append_len {α : Type _} (l1 l2 : List α) (a d : α) :
    (l1 ++ a :: l2).getD l1.length d = a := by
  induction l1 with
  | nil => rfl
  | cons x xs ih => simpa using ih

theorem set_append_len {α : Type _} (l1 l2 : List α) (a b : α) :
    (l1 ++ a :: l2).set l1.length b = l1 ++ b :: l2 := by
  induction l1 with
  | nil => rfl
  | cons x xs ih =>
    show x :: (xs ++ a :: l2).set xs.length b = x :: (xs ++ b :: l2)
    rw [ih]

theorem optionBind_some {α β : Type _} (a : α) (f : α → Option β) :
    (some a >>= f) = f a := rfl

/-- Feeding the occupied cells of `items'` (in cell order, up to index `k`)
through `TableLoadBuilder::insert` on a fresh item vector rebuilds the
prefix of `items'` verbatim. -/
theorem loadInsert_reconstruct (items' : List (Option (AssocItem V)))
    (lf : Nat) :
    ∀ k, k ≤ items'.length →
      (((List.range k).filterMap fun i =>
          (items'.getD i none).map fun it => (i, it)).foldlM
        (fun t p => loadInsert t p.1 p.2)
        (⟨some (List.replicate items'.length none), lf⟩ : Table V))
      = some ⟨some (items'.take k
          ++ List.replicate (items'.length - k) none), lf⟩ := by
  intro k
  induction k with
  | zero => intro _; simp
  | succ k ih =>
    intro hk
    have hklt : k < items'.length := by omega
    have htklen : (items'.take k).length = k := by
      rw [List.length_take]; omega
    have hsplit : items'.length - k = (items'.length - (k + 1)) + 1 := by
      omega
    rw [List.range_succ, List.filterMap_append, List.foldlM_append,
      ih (by omega)]
    rw [hsplit, List.replicate_succ]
    have htake : items'.take (k + 1)
        = items'.take k ++ (items'.getD k none) :: [] := by
      rw [List.take_succ]
      congr 1
      rw [List.getElem?_eq_getElem hklt,
        List.getD_eq_getElem _ _ (by simpa using hklt)]
      rfl
    cases hgd : items'.getD k none with
    | none =>
      have hcells : (List.filterMap
          (fun i => Option.map (fun it => (i, it)) (items'.getD i none))
          [k]) = [] := by
        rw [List.filterMap_cons, hgd]
        rfl
      rw [hcells, optionBind_some, List.foldlM_nil]
      rw [htake, hgd, List.append_assoc]
      rfl
    | some it =>
      have hcells : (List.filterMap
          (fun i => Option.map (fun it => (i, it)) (items'.getD i none))
          [k]) = [(k, it)] := by
        rw [List.filterMap_cons, hgd]
        rfl
      rw [hcells]
      have hstep : loadInsert
          (⟨some (items'.take k ++ none ::
            List.replicate (items'.length - (k + 1)) none), lf⟩ : Table V)
          k it
          = some ⟨some (items'.take k ++ some it ::
            List.replicate (items'.length - (k + 1)) none), lf⟩ := by
        have hlen2 : (items'.take k ++ none ::
            List.replicate (items'.length - (k + 1))
              (none : Option (AssocItem V))).length = items'.length := by
          simp only [List.length_append, List.length_cons,
            List.length_replicate, htklen]
          omega
        have hgd2 : (items'.take k ++ none ::
            List.replicate (items'.length - (k + 1))
              (none : Option (AssocItem V))).getD k none = none := by
          have h := getD_append_len (items'.take k)
            (List.replicate (items'.length - (k + 1))
              (none : Option (AssocItem V))) none none
          rwa [htklen] at h
        have hset : (items'.take k ++ none ::
            List.replicate (items'.length - (k + 1))
              (none : Option (AssocItem V))).set k (some it)
            = items'.take k ++ some it ::
              List.replicate (items'.length - (k + 1)) none := by
          have h := set_append_len (items'.take k)
            (List.replicate (items'.length - (k + 1))
              (none : Option (AssocItem V))) none (some it)
          rwa [htklen] at h
        unfold loadInsert
        simp only []
        rw [if_pos (by rw [hlen2]; exact hklt), hgd2, hset]
      rw [optionBind_some, List.foldlM_cons, hstep, optionBind_some,
        List.foldlM_nil]
      rw [htake, hgd, List.append_assoc]
      rfl

/-- C3: for identical inputs — the very cells (same keys, values, links)
and metadata (`loglen`, `last_free`) of any programmatically built table —
the load-time flow (`TableLoadBuilder::insert` per occupied cell,
`set_last_free`, `build`) terminates without panic or `Load` error and
produces the identical final layout: same cell contents, same links, same
`last_free`. -/
theorem load_flow_matches_builder (l : Nat) (h30 : l ≤ 30)
    (inserts : List (InsertItem V)) (hlen : inserts.length ≤ 2 ^ l) :
    ∃ t items, buildFromList V (some l) inserts = some t
      ∧ t.items = some items
      ∧ loadFlow (some l) (dumpCells items) t.lastFree = some (.ok t) := by
  obtain ⟨items', lastFree', hbuild, inv⟩ :=
    buildFromList_inv l h30 inserts hlen
  refine ⟨⟨some items', lastFree'⟩, items', hbuild, rfl, ?_⟩
  unfold loadFlow dumpCells
  rw [tableNew_eq, ← inv.length_eq,
    loadInsert_reconstruct items' items'.length items'.length le_rfl]
  simp only [List.take_length, Nat.sub_self, List.replicate_zero,
    List.append_nil, Option.map_some']
  congr 1
  unfold setLastFree loadBuild
  simp only []
  have hlen32 : ¬ (2 ^ 32 - 1 < Table.len
      (⟨some items', lastFree'⟩ : Table V)) := by
    show ¬ (2 ^ 32 - 1 < items'.length)
    rw [inv.length_eq]
    have : 2 ^ l ≤ 2 ^ 30 := Nat.pow_le_pow_right (by omega) h30
    omega
  have hlf : ¬ (Table.len (⟨some items', lastFree'⟩ : Table V)
      < lastFree') := by
    show ¬ (items'.length < lastFree')
    exact Nat.not_lt.mpr inv.lastFree_le
  rw [if_neg hlen32, if_neg hlf, validatePositions_of_inv h30 inv]

/-- Witness for `load_flow_matches_builder`: the build of keys `"a"`, `"b"`
at `loglen = 1`, replayed through the load flow, yields the identical
table. -/
theorem load_flow_matches_builder_witness :
    ∃ t items, buildFromList Unit (some 1)
        [InsertItem.live (.name [97]) none,
          InsertItem.live (.name [98]) none] = some t
      ∧ t.items = some items
      ∧ loadFlow (some 1) (dumpCells items) t.lastFree = some (.ok t) :=
  load_flow_matches_builder 1 (by decide)
    [InsertItem.live (.name [97]) none, InsertItem.live (.name [98]) none]
    (by decide)

theorem chainWalk_error (items : List (Option (AssocItem V)))
    (len main : Nat) :
    ∀ fuel position unval e,
      chainWalk items len main fuel position unval = .error e →
      e = "assoc node link should lead within bounds"
        ∨ e = "assoc node chain should not form a loop" := by
  intro fuel
  induction fuel with
  | zero =>
    intro position unval e h
    unfold chainWalk at h
    cases hit : items.getD position none with
    | none =>
      rw [hit] at h
      exact Except.noConfusion h
    | some it =>
      rw [hit] at h
      dsimp only at h
      by_cases hl : it.link = 0
      · rw [if_pos hl] at h
        exact Except.noConfusion h
      · rw [if_neg hl] at h
        cases hadd : checkedAddSigned position it.link with
        | none =>
          rw [hadd] at h
          injection h with h'
          exact .inl h'.symm
        | some next =>
          rw [hadd] at h
          dsimp only at h
          by_cases hlt : next < len
          · rw [if_pos hlt] at h
            injection h with h'
            exact .inr h'.symm
          · rw [if_neg hlt] at h
            injection h with h'
            exact .inl h'.symm
  | succ fuel ih =>
    intro position unval e h
    unfold chainWalk at h
    cases hit : items.getD position none with
    | none =>
      rw [hit] at h
      exact Except.noConfusion h
    | some it =>
      rw [hit] at h
      dsimp only at h
      by_cases hl : it.link = 0
      · rw [if_pos hl] at h
        exact Except.noConfusion h
      · rw [if_neg hl] at h
        cases hadd : checkedAddSigned position it.link with
        | none =>
          rw [hadd] at h
          injection h with h'
          exact .inl h'.symm
        | some next =>
          rw [hadd] at h
          dsimp only at h
          by_cases hlt : next < len
          · rw [if_pos hlt] at h
            exact ih next _ e h
          · rw [if_neg hlt] at h
            injection h with h'
            exact .inl h'.symm

theorem validateOuter_error (items : List (Option (AssocItem V)))
    (len : Nat) :
    ∀ ps unval e, validateOuter items len ps unval = .error e →
      e = "assoc node link should lead within bounds"
        ∨ e = "assoc node chain should not form a loop" := by
  intro ps
  induction ps with
  | nil =>
    intro unval e h
    exact Except.noConfusion h
  | cons p ps ih =>
    intro unval e h
    unfold validateOuter at h
    by_cases hp : unval.getD p none = some p
    · rw [if_pos hp] at h
      cases hcw : chainWalk items len p (len - 1) p unval with
      | error e' =>
        rw [hcw] at h
        injection h with h'
        exact h' ▸ chainWalk_error items len p (len - 1) p unval e' hcw
      | ok unval' =>
        rw [hcw] at h
        exact ih unval' e h
    · rw [if_neg hp] at h
      exact ih unval e h

theorem validatePositions_error (l : Nat)
    (items : List (Option (AssocItem V))) (lf : Nat)
    (hlen : items.length = 2 ^ l) (e : String)
    (h : validatePositions (⟨some items, lf⟩ : Table V) = .error e) :
    e = "assoc node link should lead within bounds"
      ∨ e = "assoc node chain should not form a loop"
      ∨ e = "table key should be in a valid position" := by
  unfold validatePositions at h
  dsimp only at h
  rw [show ilog2Exact items.length = some l from by
    rw [hlen]; exact ilog2Exact_pow l] at h
  dsimp only at h
  cases hvo : validateOuter items (iexp2 (some l))
      (List.range (iexp2 (some l))) (initUnvalidated items l) with
  | error e' =>
    rw [hvo] at h
    injection h with h'
    rcases validateOuter_error items (iexp2 (some l)) _ _ e' hvo with
      h1 | h2
    · exact .inl (h' ▸ h1)
    · exact .inr (.inl (h' ▸ h2))
  | ok unval =>
    rw [hvo] at h
    dsimp only at h
    by_cases hall : unval.all Option.isNone
    · rw [if_pos hall] at h
      exact Except.noConfusion h
    · rw [if_neg hall] at h
      injection h with h'
      exact .inr (.inr h'.symm)

/-- C6: on the power-of-two capacities the load builder is created with
(spec domain `loglen ≤ 30`), `TableLoadBuilder::build` returns exactly the
builder's table, and exactly when the size bound, the `last_free` bound and
`validate_positions` all hold; every failure carries one of the five fixed
`Load`-error reason strings. -/
theorem loadBuild_characterization (l : Nat) (h30 : l ≤ 30) (t : Table V)
    (hlen : t.len = 2 ^ l) :
    (loadBuild t = .ok t ↔ (t.len ≤ 2 ^ 32 ∧ t.lastFree ≤ t.len
        ∧ validatePositions t = .ok ()))
    ∧ (∀ e, loadBuild t = .error e →
        e = "the table should not be that large"
        ∨ e = "last free index should not exceed table size"
        ∨ e = "assoc node link should lead within bounds"
        ∨ e = "assoc node chain should not form a loop"
        ∨ e = "table key should be in a valid position")
    ∧ (∀ t', loadBuild t = .ok t' → t' = t) := by
  obtain ⟨itemsOpt, lf⟩ := t
  cases itemsOpt with
  | none =>
    exfalso
    have h0 : (⟨none, lf⟩ : Table V).len = 0 := rfl
    rw [h0] at hlen
    have h1 : 1 ≤ 2 ^ l := Nat.one_le_two_pow
    omega
  | some items =>
    have hlen' : items.length = 2 ^ l := hlen
    have hsize : ¬ (2 ^ 32 - 1
        < (⟨some items, lf⟩ : Table V).len) := by
      show ¬ (2 ^ 32 - 1 < items.length)
      rw [hlen']
      have h2 : 2 ^ l ≤ 2 ^ 30 := Nat.pow_le_pow_right (by omega) h30
      omega
    have hsize' : (⟨some items, lf⟩ : Table V).len ≤ 2 ^ 32 := by
      show items.length ≤ 2 ^ 32
      rw [hlen']
      have h2 : 2 ^ l ≤ 2 ^ 30 := Nat.pow_le_pow_right (by omega) h30
      omega
    unfold loadBuild
    rw [if_neg hsize]
    by_cases hlf : (⟨some items, lf⟩ : Table V).len < lf
    · rw [if_pos hlf]
      refine ⟨⟨fun h => Except.noConfusion h, fun h => ?_⟩, fun e h => ?_,
        fun t' h => Except.noConfusion h⟩
      · exact absurd h.2.1 (by simpa using hlf)
      · injection h with h'
        exact .inr (.inl h'.symm)
    · rw [if_neg hlf]
      cases hvp : validatePositions (⟨some items, lf⟩ : Table V) with
      | ok u =>
        refine ⟨⟨fun _ => ⟨hsize', by simpa using hlf, ?_⟩, fun _ => rfl⟩,
          fun e h => Except.noConfusion h, fun t' h => ?_⟩
        · cases u
          rfl
        · injection h with h'
          exact h'.symm
      | error e' =>
        refine ⟨⟨fun h => Except.noConfusion h, fun h => ?_⟩,
          fun e h => ?_, fun t' h => Except.noConfusion h⟩
        · exact Except.noConfusion h.2.2
        · injection h with h'
          rcases validatePositions_error l items lf hlen' e' hvp with
            h1 | h2 | h3
          · exact .inr (.inr (.inl (h' ▸ h1)))
          · exact .inr (.inr (.inr (.inl (h' ▸ h2))))
          · exact .inr (.inr (.inr (.inr (h' ▸ h3))))

/-- Witness for `loadBuild_characterization`: the fresh 2-cell table
passes all three checks and `build` returns it. -/
theorem loadBuild_characterization_witness :
    loadBuild (Table.new Unit (some 1)) = .ok (Table.new Unit (some 1)) :=
  ((loadBuild_characterization 1 (by decide) (Table.new Unit (some 1))
      (by decide)).1).mpr ⟨by decide, by decide, by decide⟩

end ExchangeDesynced
